import Mathlib

/-!
Verification development for the Pytheas in-silico digest mass engine
(`CL_version/in_silico_digestion/4_calc_mass.py`).

The Python floats are embedded as exact rationals; `round_masses` (which only
affects the printed decimal representation, rounding to 8 digits) is modelled
as the identity, so every token carries the exactly computed m/z value.
Python dictionaries of per-nucleotide masses are modelled as total functions
`Char → ℚ` (a lookup of a residue missing from the alphabet would raise
`KeyError`; no claim below concerns that situation for the mass
dictionaries).  Python `str.isdigit` is modelled on ASCII digits.
-/

set_option maxHeartbeats 1000000

namespace Pytheas

/-- Ion mode: the `--ion_mode` argument, `+` or `-`. -/
inductive Mode
| pos
| neg
deriving DecidableEq, Repr

/-- 5'-end chemistry token of a candidate.  The source compares the raw token
against `OH` and `P`; every other token falls into the final else branch of
`lines_final` (and matches no branch of the CID terminal correction). -/
inductive Chem5
| OH
| P
| other
deriving DecidableEq, Repr

/-- 3'-end chemistry token: `OH`, `P`, `cP`; any other token matches no
branch and receives no correction. -/
inductive Chem3
| OH
| P
| cP
| other
deriving DecidableEq, Repr

/-- ele_mass["H"] = 1.007825032 -/
def eleH : ℚ := 1007825032 / 1000000000

/-- ele_mass["O"] = 15.9949146196 -/
def eleO : ℚ := 159949146196 / 10000000000

/-- ele_mass["P"] = 30.9737619984 -/
def eleP : ℚ := 309737619984 / 10000000000

/-- Value of a list of decimal digits, most significant first: this is
`int()` applied to the digit string. -/
def digitsVal (ds : List ℕ) : ℕ := ds.foldl (fun a d => 10 * a + d) 0

/-- The first digit of the charge token after the sign: `split[3][1]`. -/
def firstDigit (ds : List ℕ) : ℕ := ds.headD 0

/-- An MS1 candidate line, after `reorganize_lines` and `add_charge`.  Only
the fields inspected by `lines_final` are modelled; the remaining positional
fields (molecule, residue_start, residue_end, miss, sequence_mod, num_copy,
molecule_location) are carried through the source unchanged and are
irrelevant to every claim.  `chargeDigits` is the digit part of the charge
token `split[3]` (its sign character is the global ion mode). -/
structure Cand where
  chargeDigits : List ℕ
  seq : List Char
  chem3 : Chem3
  chem5 : Chem5
deriving DecidableEq, Repr

/-- 5'-end mass correction of `lines_final`. -/
def chem5corr : Chem5 → ℚ
| .OH => eleO + eleH
| .P => eleP + 4 * eleO + 2 * eleH
| .other => eleP + 3 * eleO + eleH

/-- 3'-end mass correction of `lines_final` (no correction outside the three
recognised tokens). -/
def chem3corr : Chem3 → ℚ
| .OH => -(eleP + 3 * eleO)
| .P => eleH
| .cP => -(eleO + eleH)
| .other => 0

/-- The m/z computed by `lines_final` for one candidate and one isotope mass
dictionary.  Mirroring the source: the proton count added (positive mode) or
subtracted (negative mode) is `int(line.split()[3][1])` — the FIRST digit of
the charge token — while the divisor is `int(line.split()[3][1:])` — the full
charge value. -/
def lineMass (mode : Mode) (nts : Char → ℚ) (c : Cand) : ℚ :=
  let m0 : ℚ := (c.seq.map nts).sum + chem5corr c.chem5 + chem3corr c.chem3
  let m1 : ℚ :=
    match mode with
    | .pos => m0 + eleH * (firstDigit c.chargeDigits : ℚ)
    | .neg => m0 - eleH * (firstDigit c.chargeDigits : ℚ)
  m1 / (digitsVal c.chargeDigits : ℚ)

/-- One emitted MS1 digest line: light m/z, heavy m/z (`none` models the `-`
column printed when no heavy alphabet was given), and the candidate's
remaining fields. -/
structure MS1Out where
  mzLight : ℚ
  mzHeavy : Option ℚ
  cand : Cand
deriving DecidableEq, Repr

/-- `lines_final`: compute light and heavy m/z for every charged candidate
line and keep the line iff the LIGHT m/z lies strictly inside the window
(`if mzlow < l_mass < mzhigh`).  When no heavy alphabet is supplied the heavy
dictionary defaults to the light one and the heavy column is printed as `-`
(here: `none`). -/
def lines_final (mode : Mode) (ntsL : Char → ℚ) (ntsH : Option (Char → ℚ))
    (mzlow mzhigh : ℚ) (ls : List Cand) : List MS1Out :=
  ls.filterMap fun c =>
    let l := lineMass mode ntsL c
    let h := lineMass mode (ntsH.getD ntsL) c
    if mzlow < l ∧ l < mzhigh then
      some ⟨l, ntsH.map fun _ => h, c⟩
    else none

/-! ### Digit strings

Utilities for the digit tokens the source manipulates as Python strings:
`int()` of a digit string, `str()` of a number, and `str.isdigit`. -/

/-- The decimal digit characters, `str(d)` for `d < 10` (any other argument
is unreachable wherever this is applied). -/
def digitChar : ℕ → Char
| 0 => '0'
| 1 => '1'
| 2 => '2'
| 3 => '3'
| 4 => '4'
| 5 => '5'
| 6 => '6'
| 7 => '7'
| 8 => '8'
| 9 => '9'
| _ => '*'

/-- Numeric value of a digit character (applied only to `0`-`9`). -/
def charDigitVal (c : Char) : ℕ := c.toNat - 48

/-- `int()` applied to a digit string. -/
def strVal (s : List Char) : ℕ := digitsVal (s.map charDigitVal)

/-- Python `str.isdigit` (restricted to ASCII digits): nonempty and all
characters are digits. -/
def isDigitStr (s : List Char) : Bool := !s.isEmpty && s.all (·.isDigit)

/-- Decimal digits of `n`, least significant first, with explicit fuel (the
fuel `n` itself always suffices). -/
def digitsAux : ℕ → ℕ → List ℕ
| 0, _ => []
| _ + 1, 0 => []
| fuel + 1, n + 1 => (n + 1) % 10 :: digitsAux fuel ((n + 1) / 10)

/-- `str(n)` for a natural number: its decimal digit characters, most
significant first. -/
def natChars (n : ℕ) : List Char :=
  if n = 0 then ['0'] else ((digitsAux n n).map digitChar).reverse

/-- Value of a least-significant-first digit list. -/
def valLSD : List ℕ → ℕ
| [] => 0
| d :: ds => d + 10 * valLSD ds

theorem valLSD_digitsAux : ∀ fuel n, n ≤ fuel → valLSD (digitsAux fuel n) = n := by
  intro fuel
  induction fuel with
  | zero => intro n hn; interval_cases n; rfl
  | succ f ih =>
      intro n hn
      match n with
      | 0 => rfl
      | m + 1 =>
          have hdiv : (m + 1) / 10 ≤ f := by
            have h1 : (m + 1) / 10 < m + 1 := Nat.div_lt_self (Nat.succ_pos m) (by norm_num)
            omega
          simp only [digitsAux, valLSD, ih _ hdiv]
          omega

theorem digitsAux_lt_ten : ∀ fuel n d, d ∈ digitsAux fuel n → d < 10 := by
  intro fuel
  induction fuel with
  | zero => intro n d hd; simp [digitsAux] at hd
  | succ f ih =>
      intro n d hd
      match n with
      | 0 => simp [digitsAux] at hd
      | m + 1 =>
          simp only [digitsAux, List.mem_cons] at hd
          rcases hd with h | h
          · subst h; exact Nat.mod_lt _ (by norm_num)
          · exact ih _ _ h

theorem charDigitVal_digitChar {d : ℕ} (hd : d < 10) : charDigitVal (digitChar d) = d := by
  interval_cases d <;> rfl

theorem digitsVal_append_single (xs : List ℕ) (d : ℕ) :
    digitsVal (xs ++ [d]) = 10 * digitsVal xs + d := by
  simp [digitsVal, List.foldl_append]

theorem digitsVal_reverse_eq_valLSD (l : List ℕ) : digitsVal l.reverse = valLSD l := by
  induction l with
  | nil => rfl
  | cons d ds ih =>
      simp only [List.reverse_cons, digitsVal_append_single, ih, valLSD]
      ring

/-- Round trip: `int(str(n)) = n`. -/
theorem strVal_natChars (n : ℕ) : strVal (natChars n) = n := by
  by_cases h0 : n = 0
  · subst h0; rfl
  · simp only [natChars, if_neg h0, strVal, List.map_reverse, List.map_map]
    have hmap : (digitsAux n n).map (charDigitVal ∘ digitChar) = (digitsAux n n).map id :=
      List.map_congr_left (fun d hd => charDigitVal_digitChar (digitsAux_lt_ten n n d hd))
    rw [hmap, List.map_id, digitsVal_reverse_eq_valLSD, valLSD_digitsAux n n le_rfl]

/-- `str` on naturals is injective. -/
theorem natChars_injective : Function.Injective natChars := by
  intro a b h
  have := strVal_natChars a
  rw [h, strVal_natChars] at this
  exact this.symm

theorem digitChar_isDigit {d : ℕ} (hd : d < 10) : (digitChar d).isDigit = true := by
  interval_cases d <;> rfl

theorem natChars_all_digits (n : ℕ) : ∀ c ∈ natChars n, c.isDigit = true := by
  intro c hc
  by_cases h0 : n = 0
  · subst h0
    simp [natChars] at hc
    subst hc; rfl
  · simp only [natChars, if_neg h0, List.mem_reverse, List.mem_map] at hc
    obtain ⟨d, hd, rfl⟩ := hc
    exact digitChar_isDigit (digitsAux_lt_ten n n d hd)

theorem natChars_ne_nil (n : ℕ) : natChars n ≠ [] := by
  by_cases h0 : n = 0
  · subst h0; simp [natChars]
  · simp only [natChars, if_neg h0, ne_eq, List.reverse_eq_nil_iff, List.map_eq_nil_iff]
    match n, h0 with
    | m + 1, _ => simp [digitsAux]

/-! ### Charge table (`charge_table`, source lines 453-484)

The table file is modelled as a list of pre-tokenised lines: `firstChar` is
`line[0]`, `key` is `line.split()[0]` and `entries` is
`line.split()[1].split(",")` (a digit-starting line lacking a second token
would raise IndexError in the source; such lines are outside this model).
Keys and charge entries are kept as the raw character strings, because the
source derives its bounds by comparing them with Python's string
ordering. -/

/-- A dictionary from key strings to lists of charge strings, in insertion
order (modelling a Python `dict`). -/
abbrev Dic := List (List Char × List (List Char))

structure ChargeFileLine where
  firstChar : Char
  key : List Char
  entries : List (List Char)
deriving DecidableEq, Repr

/-- Python `d[k] = v`: replace the value of an existing key in place,
otherwise append the new binding. -/
def dictSet (d : Dic) (k : List Char) (v : List (List Char)) : Dic :=
  if d.any (fun kv => kv.1 = k) then
    d.map (fun kv => if kv.1 = k then (k, v) else kv)
  else d ++ [(k, v)]

/-- Python `k in d` / the lookup `d[k]` (`none` models `KeyError`). -/
def dictFind (d : Dic) (k : List Char) : Option (List (List Char)) :=
  (d.find? (fun kv => kv.1 = k)).map (·.2)

/-- `charge_table`: for every line whose first character is a digit, bind the
first token to the digit entries of the comma-separated second token
(non-digit entries are silently skipped). -/
def charge_table (lines : List ChargeFileLine) : Dic :=
  lines.foldl
    (fun d ln =>
      if ln.firstChar.isDigit then dictSet d ln.key (ln.entries.filter isDigitStr) else d)
    []

/-- Python string `<` (lexicographic on code points). -/
def pyStrLt : List Char → List Char → Bool
| [], [] => false
| [], _ :: _ => true
| _ :: _, [] => false
| a :: as, b :: bs => if a = b then pyStrLt as bs else decide (a < b)

/-- Python `<` on lists of strings (lexicographic). -/
def pyListLt : List (List Char) → List (List Char) → Bool
| [], [] => false
| [], _ :: _ => true
| _ :: _, [] => false
| a :: as, b :: bs => if a = b then pyListLt as bs else pyStrLt a b

/-- `min(d.items(), key=lambda x: x[1])`: the first item whose VALUE (the
list of charge strings) is minimal in Python's list-of-strings order. -/
def minByVal : Dic → Option (List Char × List (List Char))
| [] => none
| x :: xs => some (xs.foldl (fun best y => if pyListLt y.2 best.2 then y else best) x)

/-- `max(d.items(), key=lambda x: x[1])`. -/
def maxByVal : Dic → Option (List Char × List (List Char))
| [] => none
| x :: xs => some (xs.foldl (fun best y => if pyListLt best.2 y.2 then y else best) x)

/-- `min` of a nonempty generator of naturals. -/
def natMinList : List ℕ → Option ℕ
| [] => none
| x :: xs => some (xs.foldl Nat.min x)

/-- `max` of a nonempty generator of naturals. -/
def natMaxList : List ℕ → Option ℕ
| [] => none
| x :: xs => some (xs.foldl Nat.max x)

/-- `MS1_minz` (resp. `MS2_minz`): the minimum `int` over the charge list of
the item selected by `min(d.items(), key=lambda x: x[1])`. -/
def derivedMinZ (d : Dic) : Option ℕ :=
  (minByVal d).bind fun kv => natMinList (kv.2.map strVal)

/-- `MS1_z` (resp. `MS2_z`): the maximum `int` over the charge list of the
item selected by `max(d.items(), key=lambda x: x[1])`. -/
def derivedMaxZ (d : Dic) : Option ℕ :=
  (maxByVal d).bind fun kv => natMaxList (kv.2.map strVal)

/-- Every charge value appearing in any of the table's lists. -/
def allCharges (d : Dic) : List ℕ := d.flatMap fun kv => kv.2.map strVal

/-- The genuine global minimum charge across all lengths. -/
def globalMinZ (d : Dic) : Option ℕ := natMinList (allCharges d)

/-- The genuine global maximum charge across all lengths. -/
def globalMaxZ (d : Dic) : Option ℕ := natMaxList (allCharges d)

/-! ### MS1 charge enumeration (`lines_with_charge`, source lines 487-507) -/

/-- An MS1 candidate line before `add_charge` (fields as in `Cand`). -/
structure CandNC where
  seq : List Char
  chem3 : Chem3
  chem5 : Chem5
deriving DecidableEq, Repr

/-- `add_charge`: insert a charge token into the line. -/
def withCharge (c : CandNC) (z : List ℕ) : Cand := ⟨z, c.seq, c.chem3, c.chem5⟩

/-- `min(int(s) for s in d.keys())` (`MS1_minlength`). -/
def minKeyVal (d : Dic) : Option ℕ := natMinList (d.map fun kv => strVal kv.1)

/-- `max(int(s) for s in d.keys())` (`MS1_maxlength`). -/
def maxKeyVal (d : Dic) : Option ℕ := natMaxList (d.map fun kv => strVal kv.1)

/-- The per-line loop body of `lines_with_charge`: for every candidate whose
sequence length lies within the key bounds, look up
`MS1_charges[str(len(seq))]` and emit one charged line per listed charge.
The `none` result models the uncaught `KeyError` aborting the run. -/
def linesWithChargeGo (d : Dic) (lo hi : ℕ) : List CandNC → Option (List Cand)
| [] => some []
| c :: cs =>
    if lo ≤ c.seq.length ∧ c.seq.length ≤ hi then
      match dictFind d (natChars c.seq.length), linesWithChargeGo d lo hi cs with
      | some charges, some r =>
          some ((charges.map fun z => withCharge c (z.map charDigitVal)) ++ r)
      | _, _ => none
    else linesWithChargeGo d lo hi cs

/-- `lines_with_charge` (the charge table `d` is the one `charge_table`
builds from the `--MS1_charges` file). -/
def lines_with_charge (d : Dic) (ls : List CandNC) : Option (List Cand) :=
  match minKeyVal d, maxKeyVal d with
  | some lo, some hi => linesWithChargeGo d lo hi ls
  | _, _ => none

/-! ### Helper lemmas about the fold-based minima and maxima -/

theorem foldl_choice_mem {α : Type} (f : α → α → α) (hf : ∀ a b, f a b = a ∨ f a b = b) :
    ∀ (xs : List α) (x : α), xs.foldl f x ∈ x :: xs := by
  intro xs
  induction xs with
  | nil => intro x; simp
  | cons y ys ih =>
      intro x
      rw [List.foldl_cons]
      have hy := ih (f x y)
      rcases hf x y with h | h <;> rw [h] at hy <;>
        rcases List.mem_cons.mp hy with h2 | h2 <;>
        simp [h, h2]

theorem foldl_min_le (xs : List ℕ) (x : ℕ) :
    xs.foldl Nat.min x ≤ x ∧ ∀ y ∈ xs, xs.foldl Nat.min x ≤ y := by
  induction xs generalizing x with
  | nil => simp
  | cons z zs ih =>
      obtain ⟨h1, h2⟩ := ih (Nat.min x z)
      refine ⟨le_trans h1 (Nat.min_le_left _ _), ?_⟩
      intro y hy
      rcases List.mem_cons.mp hy with rfl | hy
      · exact le_trans h1 (Nat.min_le_right _ _)
      · exact h2 y hy

theorem foldl_max_le (xs : List ℕ) (x : ℕ) :
    x ≤ xs.foldl Nat.max x ∧ ∀ y ∈ xs, y ≤ xs.foldl Nat.max x := by
  induction xs generalizing x with
  | nil => simp
  | cons z zs ih =>
      obtain ⟨h1, h2⟩ := ih (Nat.max x z)
      refine ⟨le_trans (Nat.le_max_left _ _) h1, ?_⟩
      intro y hy
      rcases List.mem_cons.mp hy with rfl | hy
      · exact le_trans (Nat.le_max_right _ _) h1
      · exact h2 y hy

theorem natMinList_spec {l : List ℕ} {m : ℕ} (h : natMinList l = some m) :
    m ∈ l ∧ ∀ x ∈ l, m ≤ x := by
  match l, h with
  | x :: xs, h =>
      simp only [natMinList, Option.some.injEq] at h
      subst h
      have hmem := foldl_choice_mem Nat.min (fun a b => min_choice a b) xs x
      obtain ⟨h1, h2⟩ := foldl_min_le xs x
      exact ⟨hmem, by intro y hy; rcases List.mem_cons.mp hy with rfl | hy; exacts [h1, h2 y hy]⟩

theorem natMaxList_spec {l : List ℕ} {M : ℕ} (h : natMaxList l = some M) :
    M ∈ l ∧ ∀ x ∈ l, x ≤ M := by
  match l, h with
  | x :: xs, h =>
      simp only [natMaxList, Option.some.injEq] at h
      subst h
      have hmem := foldl_choice_mem Nat.max (fun a b => max_choice a b) xs x
      obtain ⟨h1, h2⟩ := foldl_max_le xs x
      exact ⟨hmem, by intro y hy; rcases List.mem_cons.mp hy with rfl | hy; exacts [h1, h2 y hy]⟩

theorem minByVal_mem {d : Dic} {kv : List Char × List (List Char)}
    (h : minByVal d = some kv) : kv ∈ d := by
  match d, h with
  | x :: xs, h =>
      simp only [minByVal, Option.some.injEq] at h
      subst h
      exact foldl_choice_mem _ (fun a b => by by_cases hq : pyListLt b.2 a.2 <;> simp [hq]) xs x

theorem maxByVal_mem {d : Dic} {kv : List Char × List (List Char)}
    (h : maxByVal d = some kv) : kv ∈ d := by
  match d, h with
  | x :: xs, h =>
      simp only [maxByVal, Option.some.injEq] at h
      subst h
      exact foldl_choice_mem _ (fun a b => by by_cases hq : pyListLt a.2 b.2 <;> simp [hq]) xs x

/-! ### MS2 fragment generation (`fragment_MS2_masses`, source lines 694-1298)

Tokens are modelled as a `label` — the character string printed before the
`:` (series-or-loss name, position and charge) — together with the exact m/z.
The `site` field is ghost provenance recording which append statement of the
source produced the token; it influences no computation (in particular the
dedup membership test compares label and m/z only, mirroring the source's
string membership test `output_string not in output_masses`, with the m/z
value compared exactly instead of by its rounded decimal rendering).

Python's `set` iteration order over the distinct residues and over the
requested CID series is unspecified; it is fixed here by `List.dedup`.  All
claims below are order-insensitive (membership and pairwise distinctness).

The source reads `last_nt = list(line.split()[7])[-1]`; the sequence token is
produced by `str.split()` and is therefore nonempty, so the default of
`getLastD` is never used on source-reachable inputs. -/

/-- The CID series names accepted by `--CID_series`. -/
inductive CIDIon
| a
| aB
| b
| c
| d
| w
| x
| y
| z
| yP
| zP
deriving DecidableEq, Repr

/-- First character of the series name. -/
def ionHeadChar : CIDIon → Char
| .a => 'a'
| .aB => 'a'
| .b => 'b'
| .c => 'c'
| .d => 'd'
| .w => 'w'
| .x => 'x'
| .y => 'y'
| .z => 'z'
| .yP => 'y'
| .zP => 'z'

/-- Characters of the series name after the first (`ion[1:]`). -/
def ionSuffix : CIDIon → List Char
| .aB => ['-', 'B']
| .yP => ['-', 'P']
| .zP => ['-', 'P']
| _ => []

/-- `dic_CID_series_masses`. -/
def cidOffset : CIDIon → ℚ
| .a => -(eleP + 4 * eleO + 2 * eleH)
| .aB => -(eleP + 4 * eleO + 3 * eleH)
| .b => -(eleP + 3 * eleO)
| .c => -(eleO + eleH)
| .d => eleH
| .z => -eleH
| .y => eleO + eleH
| .x => eleP + 3 * eleO
| .w => eleP + 4 * eleO + 2 * eleH
| .zP => -(eleH + eleP + 3 * eleO)
| .yP => -(eleH + eleP + 3 * eleO)

/-- The offset used when accumulating `mass_fragment`: the source looks up
`dic_CID_series_masses[ion[0]]` for the `y-P`/`z-P` series and
`dic_CID_series_masses[ion]` otherwise. -/
def cidOffsetMain : CIDIon → ℚ
| .yP => cidOffset .y
| .zP => cidOffset .z
| ion => cidOffset ion

/-- `dic_M_x_series["M-H2O"]`. -/
def dicMH2O : ℚ := -(eleH * 2 + eleO)

/-- `dic_M_x_series["M-PO3H"]`. -/
def dicMPO3H : ℚ := -(eleO * 3 + eleP + eleH)

/-- `dic_M_x_series["M-PO4H3"]`. -/
def dicMPO4H3 : ℚ := -(eleP + eleO * 4 + eleH * 3)

/-- `dic_M_x_series["M-PO3"]`. -/
def dicMPO3 : ℚ := -(eleO * 3 + eleP)

/-- `dic_M_x_series["M-PO4H2"]`. -/
def dicMPO4H2 : ℚ := -(eleP + eleO * 4 + eleH * 2)

/-- `freebase_correction`: two protons in positive mode, none in negative. -/
def freebaseCorr : Mode → ℚ
| .neg => 0
| .pos => 2 * eleH

/-- `charge_correction` for charged losses. -/
def chargeCorr : Mode → ℚ
| .neg => 0
| .pos => -(2 * eleH)

/-- The sign character of the ion mode. -/
def modeChar : Mode → Char
| .pos => '+'
| .neg => '-'

/-- Ghost provenance of an emitted MS2 token (which append statement of the
source produced it, with its loop parameters). -/
inductive Site
| mh2o
| mpNeutral
| mh2opNeutral
| mpCharged
| mh2opCharged
| freeBase (bs : Char)
| baseLossCharged (bs : Char)
| basePhosCharged (bs : Char)
| doubleLossCharged (bs : Char)
| baseLossNeutral (bs : Char)
| basePhosNeutral (bs : Char)
| doubleLossNeutral (bs : Char)
| cid (ion : CIDIon) (i : ℕ) (c : List Char) (alt : Bool)
deriving DecidableEq, Repr

/-- One emitted MS2 token: the label printed before the `:` and the m/z
printed after it, plus ghost provenance. -/
structure Tok where
  site : Site
  label : List Char
  mz : ℚ
deriving DecidableEq, Repr

/-- Configuration and shared tables consumed by `fragment_MS2_masses`. -/
structure Params where
  mode : Mode
  mzlow : ℚ
  mzhigh : ℚ
  series : List CIDIon
  chargeDic : Dic
  ntsLight : Char → ℚ
  ntsHeavy : Char → ℚ
  baseLight : Char → ℚ
  baseHeavy : Char → ℚ

/-- One MS2-stage candidate line (built at source lines 1396-1430): precursor
m/z `split[0]`, isotope tag `split[1]`, charge token `split[5]`, sequence
`split[7]`, 5'-end `split[9]`, 3'-end `split[10]`. -/
structure MS2Line where
  massPrec : ℚ
  isHeavy : Bool
  chargeDigits : List ℕ
  seq : List Char
  chem5 : Chem5
  chem3 : Chem3

/-- `label(chargePart)`: the printed label shape. -/
def mkLabel (name : List Char) (chargePart : List Char) : List Char :=
  name ++ '(' :: (chargePart ++ [')'])

/-- The charge part `line.split()[5]` (sign and original digit token). -/
def precTok (mo : Mode) (ds : List ℕ) : List Char := modeChar mo :: ds.map digitChar

/-- The charge part `line.split()[5][0] + str(charged_loss)`. -/
def clTok (mo : Mode) (cl : ℕ) : List Char := modeChar mo :: natChars cl

/-- The charge part `args.ion_mode + "1"` of a standalone free-base ion. -/
def oneTok (mo : Mode) : List Char := [modeChar mo, '1']

/-- The MS2 window test `args.MS2_mzhigh >= x >= args.MS2_mzlow`. -/
def inWinB (P : Params) (x : ℚ) : Bool := decide (P.mzlow ≤ x) && decide (x ≤ P.mzhigh)

/-- Unconditional `output_masses.append`. -/
def appendTok (acc : List Tok) (t : Tok) : List Tok := acc ++ [t]

/-- `if output_string not in output_masses: output_masses.append(...)`:
membership is tested on the printed string, i.e. label and m/z (the ghost
`site` is not compared). -/
def appendIfNew (acc : List Tok) (t : Tok) : List Tok :=
  if acc.any (fun u => decide (u.label = t.label ∧ u.mz = t.mz)) then acc else acc ++ [t]

/-- Window-guarded unconditional append. -/
def winAppend (P : Params) (acc : List Tok) (t : Tok) : List Tok :=
  if inWinB P t.mz then acc ++ [t] else acc

/-- Window-guarded membership-tested append. -/
def winAppendIfNew (P : Params) (acc : List Tok) (t : Tok) : List Tok :=
  if inWinB P t.mz then appendIfNew acc t else acc

/-- `charge_prec = int(line.split()[5][1:])`. -/
def zOf (ln : MS2Line) : ℕ := digitsVal ln.chargeDigits

/-- `charged_loss = charge_prec - 1`. -/
def clOf (ln : MS2Line) : ℕ := zOf ln - 1

/-- `last_nt = list(line.split()[7])[-1]` (the sequence token is nonempty on
source-reachable inputs, so the default is never used there). -/
def lastOf (ln : MS2Line) : Char := ln.seq.getLastD ' '

/-- The base-only mass dictionary selected by the isotope tag
(`nts_dic_onlyB_light` / `nts_dic_onlyB_heavy`). -/
def baseDic (P : Params) (ln : MS2Line) : Char → ℚ :=
  if ln.isHeavy then P.baseHeavy else P.baseLight

/-- The total-mass dictionary selected by the isotope tag. -/
def totDic (P : Params) (ln : MS2Line) : Char → ℚ :=
  if ln.isHeavy then P.ntsHeavy else P.ntsLight

/-- The charge part of the labels using `line.split()[5]`. -/
def precOf (P : Params) (ln : MS2Line) : List Char := precTok P.mode ln.chargeDigits

/-- The charge part of the charged-loss labels. -/
def clTokOf (P : Params) (ln : MS2Line) : List Char := clTok P.mode (clOf ln)

/-- `M-H2O`. -/
def tokMH2O (P : Params) (ln : MS2Line) : Tok :=
  ⟨.mh2o, mkLabel ['M', '-', 'H', '2', 'O'] (precOf P ln), ln.massPrec + dicMH2O / (zOf ln : ℚ)⟩

/-- Neutral `M-PO3H` loss, printed `M-P`. -/
def tokMPn (P : Params) (ln : MS2Line) : Tok :=
  ⟨.mpNeutral, mkLabel ['M', '-', 'P'] (precOf P ln), ln.massPrec + dicMPO3H / (zOf ln : ℚ)⟩

/-- Neutral `M-PO4H3` loss, printed `M-H2O-P`. -/
def tokMH2OPn (P : Params) (ln : MS2Line) : Tok :=
  ⟨.mh2opNeutral, mkLabel ['M', '-', 'H', '2', 'O', '-', 'P'] (precOf P ln),
    ln.massPrec + dicMPO4H3 / (zOf ln : ℚ)⟩

/-- Charged `M-PO3` loss, printed `M-P` at the reduced charge. -/
def tokMPc (P : Params) (ln : MS2Line) : Tok :=
  ⟨.mpCharged, mkLabel ['M', '-', 'P'] (clTokOf P ln),
    (ln.massPrec * (zOf ln : ℚ) + dicMPO3 + chargeCorr P.mode) / (clOf ln : ℚ)⟩

/-- Charged `M-PO4H2` loss, printed `M-H2O-P` at the reduced charge. -/
def tokMH2OPc (P : Params) (ln : MS2Line) : Tok :=
  ⟨.mh2opCharged, mkLabel ['M', '-', 'H', '2', 'O', '-', 'P'] (clTokOf P ln),
    (ln.massPrec * (zOf ln : ℚ) + dicMPO4H2 + chargeCorr P.mode) / (clOf ln : ℚ)⟩

/-- The standalone free-base ion of residue `bs` (no window test). -/
def tokFree (P : Params) (ln : MS2Line) (bs : Char) : Tok :=
  ⟨.freeBase bs, mkLabel [bs] (oneTok P.mode), baseDic P ln bs + freebaseCorr P.mode⟩

/-- Charged base loss `M-B⁻`. -/
def tokMB (P : Params) (ln : MS2Line) (bs : Char) : Tok :=
  ⟨.baseLossCharged bs, mkLabel ['M', '-', bs] (clTokOf P ln),
    (ln.massPrec * (zOf ln : ℚ) + chargeCorr P.mode - baseDic P ln bs) / (clOf ln : ℚ)⟩

/-- Charged simultaneous phosphate-and-base loss `M-P-B⁻` (applied to the
3'-terminal residue in the cyclic-phosphate branch). -/
def tokMPBc (P : Params) (ln : MS2Line) (bs : Char) : Tok :=
  ⟨.basePhosCharged bs, mkLabel ['M', '-', 'P', '-', bs] (clTokOf P ln),
    (ln.massPrec * (zOf ln : ℚ) + chargeCorr P.mode - baseDic P ln bs + dicMPO3H) / (clOf ln : ℚ)⟩

/-- Charged double base loss (cyclic-phosphate 3' end only). -/
def tokMBBc (P : Params) (ln : MS2Line) (bs : Char) : Tok :=
  ⟨.doubleLossCharged bs, mkLabel ['M', '-', bs, '-', lastOf ln] (clTokOf P ln),
    (ln.massPrec * (zOf ln : ℚ) + chargeCorr P.mode - baseDic P ln bs - baseDic P ln (lastOf ln))
      / (clOf ln : ℚ)⟩

/-- Neutral base loss `M-B`. -/
def tokMBH (P : Params) (ln : MS2Line) (bs : Char) : Tok :=
  ⟨.baseLossNeutral bs, mkLabel ['M', '-', bs] (precOf P ln),
    ln.massPrec - (baseDic P ln bs + eleH) / (zOf ln : ℚ)⟩

/-- Neutral simultaneous phosphate-and-base loss `M-P-B`. -/
def tokMPBn (P : Params) (ln : MS2Line) (bs : Char) : Tok :=
  ⟨.basePhosNeutral bs, mkLabel ['M', '-', 'P', '-', bs] (precOf P ln),
    ln.massPrec - (baseDic P ln bs + eleH - dicMPO3H) / (zOf ln : ℚ)⟩

/-- Neutral double base loss (cyclic-phosphate 3' end only). -/
def tokMBBn (P : Params) (ln : MS2Line) (bs : Char) : Tok :=
  ⟨.doubleLossNeutral bs, mkLabel ['M', '-', bs, '-', lastOf ln] (precOf P ln),
    ln.massPrec - (baseDic P ln bs + eleH + baseDic P ln (lastOf ln)) / (zOf ln : ℚ)⟩

/-- `M-H2O` and the precursor-level phosphate-loss ions (source lines
724-802).  The charged variants divide by `charged_loss = charge_prec - 1`
and are attempted only when `charge_prec > 1`. -/
def lossTokens (P : Params) (ln : MS2Line) : List Tok :=
  let acc := winAppend P [] (tokMH2O P ln)
  if ln.chem3 = .P ∨ ln.chem5 = .P then
    let acc := winAppend P acc (tokMPn P ln)
    let acc := winAppend P acc (tokMH2OPn P ln)
    if 1 < zOf ln then
      winAppend P (winAppend P acc (tokMPc P ln)) (tokMH2OPc P ln)
    else acc
  else if ln.chem3 = .cP then
    if 1 < zOf ln then winAppend P acc (tokMPc P ln) else acc
  else acc

/-- The standalone free-base append (source lines 810-817 and 950-957): the
light branch tests membership first, the heavy branch appends
unconditionally. -/
def freeStage1 (P : Params) (ln : MS2Line) (bs : Char) (acc : List Tok) : List Tok :=
  if ln.isHeavy then acc ++ [tokFree P ln bs] else appendIfNew acc (tokFree P ln bs)

/-- The charged base-loss block, entered only for `charge_prec > 1` (source
lines 819-893 and 959-1033). -/
def freeStage2 (P : Params) (ln : MS2Line) (bs : Char) (acc : List Tok) : List Tok :=
  if 1 < zOf ln then
    let acc := winAppendIfNew P acc (tokMB P ln bs)
    if ln.chem3 = .P ∨ ln.chem5 = .P then
      winAppendIfNew P acc (tokMPBc P ln bs)
    else if ln.chem3 = .cP then
      let acc := winAppendIfNew P acc (tokMPBc P ln (lastOf ln))
      if bs ∈ ln.seq.dropLast then winAppendIfNew P acc (tokMBBc P ln bs) else acc
    else acc
  else acc

/-- The neutral base-loss append (source lines 895-907 and 1035-1046): the
light branch appends without a membership test, the heavy branch tests
first. -/
def freeStage3 (P : Params) (ln : MS2Line) (bs : Char) (acc : List Tok) : List Tok :=
  if inWinB P (tokMBH P ln bs).mz then
    (if ln.isHeavy then appendIfNew acc (tokMBH P ln bs) else acc ++ [tokMBH P ln bs])
  else acc

/-- The neutral phosphate-and-base (or cyclic-phosphate double-base) loss
(source lines 909-948 and 1048-1090). -/
def freeStage4 (P : Params) (ln : MS2Line) (bs : Char) (acc : List Tok) : List Tok :=
  if ln.chem3 = .P ∨ ln.chem5 = .P then
    winAppendIfNew P acc (tokMPBn P ln bs)
  else if ln.chem3 = .cP then
    if bs ∈ ln.seq.dropLast then winAppendIfNew P acc (tokMBBn P ln bs) else acc
  else acc

/-- The body of the `for b in unique_seq` loop (source lines 808-1090): the
four appends run in source order against the same growing list.  The two
halves of the source (light/heavy isotope) are structurally identical except
for the two membership-test asymmetries noted at stages 1 and 3. -/
def freeStep (P : Params) (ln : MS2Line) (acc : List Tok) (bs : Char) : List Tok :=
  freeStage4 P ln bs (freeStage3 P ln bs (freeStage2 P ln bs (freeStage1 P ln bs acc)))

/-- Direction of the walk: `a`, `a-B`, `b`, `c`, `d` read the sequence
5'→3', every other series reads it reversed. -/
def upstreamIon : CIDIon → Bool
| .a | .aB | .b | .c | .d => true
| _ => false

/-- The accumulated `mass_fragment` (first component) and
`mass_fragment_3OH` (second component) for one series at traversal length
`i` (source lines 1111-1206). -/
def cidFragMasses (P : Params) (ln : MS2Line) (ion : CIDIon) (i : ℕ) : ℚ × ℚ :=
  let dic := if ln.isHeavy then P.ntsHeavy else P.ntsLight
  let dicB := if ln.isHeavy then P.baseHeavy else P.baseLight
  let seqd := if upstreamIon ion then ln.seq else ln.seq.reverse
  let mf0 : ℚ := ((seqd.take (i - 1)).map dic).sum
  let nt := seqd.getD (i - 1) ' '
  let mf1 := mf0 + dic nt + cidOffsetMain ion
  let mf2 := if ion = .aB then mf1 - dicB nt else mf1
  if upstreamIon ion then
    let mf3 := if ln.chem5 = .OH then mf2 + eleO + eleH else mf2
    let mf4 := if ln.chem5 = .P then mf3 + eleO * 4 + eleH * 2 + eleP else mf3
    (mf4, 0)
  else
    if ln.chem3 = .OH then (mf2 - eleP - eleO * 3, 0)
    else if ln.chem3 = .P then
      let mf3 := mf2 + eleH
      if ion = .yP ∨ ion = .zP then (mf3, mf3 + cidOffset ion) else (mf3, 0)
    else if ln.chem3 = .cP then (mf2 - eleO - eleH, 0)
    else (mf2, 0)

/-- The label of a CID token: series head character, position, series
suffix, then `(sign charge)`; identical for the plain and the `3'-OH
alternate` emission site. -/
def cidLabel (mo : Mode) (ion : CIDIon) (i : ℕ) (c : List Char) : List Char :=
  ionHeadChar ion :: (natChars i ++ ionSuffix ion) ++ '(' :: ((modeChar mo :: c) ++ [')'])

/-- Add (positive mode) or subtract (negative mode) `charge` hydrogens. -/
def chargeAdj (mo : Mode) (x cq : ℚ) : ℚ :=
  match mo with
  | .pos => x + eleH * cq
  | .neg => x - eleH * cq

/-- `mz_fragment` for one charge. -/
def cidMz (mo : Mode) (mf cq : ℚ) : ℚ := chargeAdj mo mf cq / cq

/-- `mz_fragment_3OH` for one charge, `0` when `mass_fragment_3OH` is falsy
(the source tests the float's truthiness). -/
def cidMz3 (mo : Mode) (m3 cq : ℚ) : ℚ :=
  if m3 ≠ 0 then chargeAdj mo m3 cq / cq else 0

/-- The `for char in MS2_charge_dic[str(i)]` body (source lines 1209-1296):
charges above the precursor charge are skipped; `mz_fragment` is emitted for
every series except `y-P`/`z-P`, while the alternate `mz_fragment_3OH` is
emitted whenever it passes the window test (it is `0` unless
`mass_fragment_3OH` is nonzero). -/
def cidChargeTokens (P : Params) (ln : MS2Line) (ion : CIDIon) (i : ℕ)
    (mf m3 : ℚ) (c : List Char) : List Tok :=
  if strVal c ≤ digitsVal ln.chargeDigits then
    (if inWinB P (cidMz P.mode mf (strVal c : ℚ)) = true ∧ ion ≠ .yP ∧ ion ≠ .zP then
      [⟨.cid ion i c false, cidLabel P.mode ion i c, cidMz P.mode mf (strVal c : ℚ)⟩]
    else [])
    ++ (if inWinB P (cidMz3 P.mode m3 (strVal c : ℚ)) = true then
      [⟨.cid ion i c true, cidLabel P.mode ion i c, cidMz3 P.mode m3 (strVal c : ℚ)⟩]
    else [])
  else []

/-- The backbone CID enumeration (source lines 1093-1296): for every
requested series (deduplicated), every traversal length `1 ≤ i ≤ len - 1`
present as a key of the MS2 charge table, and every charge listed for that
length. -/
def cidTokens (P : Params) (ln : MS2Line) : List Tok :=
  (P.series.dedup).flatMap fun ion =>
    (List.range' 1 (ln.seq.length - 1)).flatMap fun i =>
      match dictFind P.chargeDic (natChars i) with
      | none => []
      | some charges =>
          let fm := cidFragMasses P ln ion i
          charges.flatMap fun c => cidChargeTokens P ln ion i fm.1 fm.2 c

/-- The distinct residues `set(list(line.split()[7]))`. -/
def uniqueSeq (ln : MS2Line) : List Char := ln.seq.dedup

/-- `fragment_MS2_masses`: precursor-level losses, then the free-base loop,
then the CID series (all appended to the same growing list; only the
membership-tested sites of the free-base loop consult the accumulator). -/
def fragment_MS2_masses (P : Params) (ln : MS2Line) : List Tok :=
  ((uniqueSeq ln).foldl (freeStep P ln) (lossTokens P ln)) ++ cidTokens P ln

/-! ### Membership structure of `fragment_MS2_masses` -/

theorem mem_append_singleton {acc : List Tok} {t u : Tok} (h : u ∈ acc ++ [t]) :
    u ∈ acc ∨ u = t := by
  rcases List.mem_append.mp h with h' | h'
  · exact Or.inl h'
  · exact Or.inr (List.mem_singleton.mp h')

theorem mem_appendIfNew {acc : List Tok} {t u : Tok} (h : u ∈ appendIfNew acc t) :
    u ∈ acc ∨ u = t := by
  unfold appendIfNew at h
  split at h
  · exact Or.inl h
  · exact mem_append_singleton h

theorem mem_winAppend {P : Params} {acc : List Tok} {t u : Tok} (h : u ∈ winAppend P acc t) :
    u ∈ acc ∨ (u = t ∧ inWinB P t.mz = true) := by
  unfold winAppend at h
  split at h
  next hw =>
    rcases mem_append_singleton h with h' | h'
    exacts [Or.inl h', Or.inr ⟨h', hw⟩]
  next hw => exact Or.inl h

theorem mem_winAppendIfNew {P : Params} {acc : List Tok} {t u : Tok}
    (h : u ∈ winAppendIfNew P acc t) : u ∈ acc ∨ (u = t ∧ inWinB P t.mz = true) := by
  unfold winAppendIfNew at h
  split at h
  next hw =>
    rcases mem_appendIfNew h with h' | h'
    exacts [Or.inl h', Or.inr ⟨h', hw⟩]
  next hw => exact Or.inl h

theorem subset_appendIfNew (acc : List Tok) (t : Tok) : acc ⊆ appendIfNew acc t := by
  intro u hu
  unfold appendIfNew
  split
  · exact hu
  · exact List.mem_append_left _ hu

theorem subset_winAppend (P : Params) (acc : List Tok) (t : Tok) : acc ⊆ winAppend P acc t := by
  intro u hu
  unfold winAppend
  split
  · exact List.mem_append_left _ hu
  · exact hu

theorem subset_winAppendIfNew (P : Params) (acc : List Tok) (t : Tok) :
    acc ⊆ winAppendIfNew P acc t := by
  intro u hu
  unfold winAppendIfNew
  split
  · exact subset_appendIfNew acc t hu
  · exact hu

theorem subset_freeStage1 (P : Params) (ln : MS2Line) (bs : Char) (acc : List Tok) :
    acc ⊆ freeStage1 P ln bs acc := by
  unfold freeStage1
  split
  · exact fun u hu => List.mem_append_left _ hu
  · exact subset_appendIfNew _ _

theorem subset_freeStage2 (P : Params) (ln : MS2Line) (bs : Char) (acc : List Tok) :
    acc ⊆ freeStage2 P ln bs acc := by
  unfold freeStage2
  split
  · split
    · exact (subset_winAppendIfNew _ _ _).trans (subset_winAppendIfNew _ _ _)
    · split
      · split
        · exact ((subset_winAppendIfNew _ _ _).trans (subset_winAppendIfNew _ _ _)).trans
            (subset_winAppendIfNew _ _ _)
        · exact (subset_winAppendIfNew _ _ _).trans (subset_winAppendIfNew _ _ _)
      · exact subset_winAppendIfNew _ _ _
  · exact fun u hu => hu

theorem subset_freeStage3 (P : Params) (ln : MS2Line) (bs : Char) (acc : List Tok) :
    acc ⊆ freeStage3 P ln bs acc := by
  unfold freeStage3
  split
  · split
    · exact subset_appendIfNew _ _
    · exact fun u hu => List.mem_append_left _ hu
  · exact fun u hu => hu

theorem subset_freeStage4 (P : Params) (ln : MS2Line) (bs : Char) (acc : List Tok) :
    acc ⊆ freeStage4 P ln bs acc := by
  unfold freeStage4
  split
  · exact subset_winAppendIfNew _ _ _
  · split
    · split
      · exact subset_winAppendIfNew _ _ _
      · exact fun u hu => hu
    · exact fun u hu => hu

theorem subset_freeStep (P : Params) (ln : MS2Line) (bs : Char) (acc : List Tok) :
    acc ⊆ freeStep P ln acc bs :=
  (((subset_freeStage1 P ln bs acc).trans (subset_freeStage2 P ln bs _)).trans
    (subset_freeStage3 P ln bs _)).trans (subset_freeStage4 P ln bs _)

theorem subset_foldl_freeStep (P : Params) (ln : MS2Line) :
    ∀ (bs : List Char) (acc : List Tok), acc ⊆ bs.foldl (freeStep P ln) acc := by
  intro bs
  induction bs with
  | nil => exact fun acc u hu => hu
  | cons b bs ih =>
      intro acc
      exact (subset_freeStep P ln b acc).trans (ih (freeStep P ln acc b))

theorem lossTokens_subset_frag (P : Params) (ln : MS2Line) :
    lossTokens P ln ⊆ fragment_MS2_masses P ln := fun _ hu =>
  List.mem_append_left _ (subset_foldl_freeStep P ln (uniqueSeq ln) (lossTokens P ln) hu)

/-- The tokens the free-base loop body may add for residue `bs`, with the
conditions under which each is added. -/
def FreeNew (P : Params) (ln : MS2Line) (bs : Char) (u : Tok) : Prop :=
  u = tokFree P ln bs
  ∨ (1 < zOf ln ∧ inWinB P u.mz = true ∧
      (u = tokMB P ln bs
        ∨ ((ln.chem3 = .P ∨ ln.chem5 = .P) ∧ u = tokMPBc P ln bs)
        ∨ (¬(ln.chem3 = .P ∨ ln.chem5 = .P) ∧ ln.chem3 = .cP ∧
            (u = tokMPBc P ln (lastOf ln) ∨ (bs ∈ ln.seq.dropLast ∧ u = tokMBBc P ln bs)))))
  ∨ (inWinB P u.mz = true ∧ u = tokMBH P ln bs)
  ∨ (inWinB P u.mz = true ∧
      (((ln.chem3 = .P ∨ ln.chem5 = .P) ∧ u = tokMPBn P ln bs)
        ∨ (¬(ln.chem3 = .P ∨ ln.chem5 = .P) ∧ ln.chem3 = .cP ∧ bs ∈ ln.seq.dropLast ∧
            u = tokMBBn P ln bs)))

theorem mem_freeStage1 {P : Params} {ln : MS2Line} {bs : Char} {acc : List Tok} {u : Tok}
    (h : u ∈ freeStage1 P ln bs acc) : u ∈ acc ∨ u = tokFree P ln bs := by
  unfold freeStage1 at h
  split at h
  · exact mem_append_singleton h
  · exact mem_appendIfNew h

theorem mem_freeStage2 {P : Params} {ln : MS2Line} {bs : Char} {acc : List Tok} {u : Tok}
    (h : u ∈ freeStage2 P ln bs acc) :
    u ∈ acc ∨ (1 < zOf ln ∧ inWinB P u.mz = true ∧
      (u = tokMB P ln bs
        ∨ ((ln.chem3 = .P ∨ ln.chem5 = .P) ∧ u = tokMPBc P ln bs)
        ∨ (¬(ln.chem3 = .P ∨ ln.chem5 = .P) ∧ ln.chem3 = .cP ∧
            (u = tokMPBc P ln (lastOf ln) ∨ (bs ∈ ln.seq.dropLast ∧ u = tokMBBc P ln bs))))) := by
  unfold freeStage2 at h
  split at h
  next hz =>
    split at h
    next hch =>
      rcases mem_winAppendIfNew h with h' | ⟨rfl, hw⟩
      · rcases mem_winAppendIfNew h' with h'' | ⟨rfl, hw⟩
        · exact Or.inl h''
        · exact Or.inr ⟨hz, hw, Or.inl rfl⟩
      · exact Or.inr ⟨hz, hw, Or.inr (Or.inl ⟨hch, rfl⟩)⟩
    next hch =>
      split at h
      next hcp =>
        split at h
        next hdl =>
          rcases mem_winAppendIfNew h with h' | ⟨rfl, hw⟩
          · rcases mem_winAppendIfNew h' with h'' | ⟨rfl, hw⟩
            · rcases mem_winAppendIfNew h'' with h''' | ⟨rfl, hw⟩
              · exact Or.inl h'''
              · exact Or.inr ⟨hz, hw, Or.inl rfl⟩
            · exact Or.inr ⟨hz, hw, Or.inr (Or.inr ⟨hch, hcp, Or.inl rfl⟩)⟩
          · exact Or.inr ⟨hz, hw, Or.inr (Or.inr ⟨hch, hcp, Or.inr ⟨hdl, rfl⟩⟩)⟩
        next hdl =>
          rcases mem_winAppendIfNew h with h' | ⟨rfl, hw⟩
          · rcases mem_winAppendIfNew h' with h'' | ⟨rfl, hw⟩
            · exact Or.inl h''
            · exact Or.inr ⟨hz, hw, Or.inl rfl⟩
          · exact Or.inr ⟨hz, hw, Or.inr (Or.inr ⟨hch, hcp, Or.inl rfl⟩)⟩
      next hcp =>
        rcases mem_winAppendIfNew h with h' | ⟨rfl, hw⟩
        · exact Or.inl h'
        · exact Or.inr ⟨hz, hw, Or.inl rfl⟩
  next hz => exact Or.inl h

theorem mem_freeStage3 {P : Params} {ln : MS2Line} {bs : Char} {acc : List Tok} {u : Tok}
    (h : u ∈ freeStage3 P ln bs acc) :
    u ∈ acc ∨ (inWinB P u.mz = true ∧ u = tokMBH P ln bs) := by
  unfold freeStage3 at h
  split at h
  next hw =>
    split at h
    · rcases mem_appendIfNew h with h' | rfl
      · exact Or.inl h'
      · exact Or.inr ⟨hw, rfl⟩
    · rcases mem_append_singleton h with h' | rfl
      · exact Or.inl h'
      · exact Or.inr ⟨hw, rfl⟩
  next hw => exact Or.inl h

theorem mem_freeStage4 {P : Params} {ln : MS2Line} {bs : Char} {acc : List Tok} {u : Tok}
    (h : u ∈ freeStage4 P ln bs acc) :
    u ∈ acc ∨ (inWinB P u.mz = true ∧
      (((ln.chem3 = .P ∨ ln.chem5 = .P) ∧ u = tokMPBn P ln bs)
        ∨ (¬(ln.chem3 = .P ∨ ln.chem5 = .P) ∧ ln.chem3 = .cP ∧ bs ∈ ln.seq.dropLast ∧
            u = tokMBBn P ln bs))) := by
  unfold freeStage4 at h
  split at h
  next hch =>
    rcases mem_winAppendIfNew h with h' | ⟨rfl, hw⟩
    · exact Or.inl h'
    · exact Or.inr ⟨hw, Or.inl ⟨hch, rfl⟩⟩
  next hch =>
    split at h
    next hcp =>
      split at h
      next hdl =>
        rcases mem_winAppendIfNew h with h' | ⟨rfl, hw⟩
        · exact Or.inl h'
        · exact Or.inr ⟨hw, Or.inr ⟨hch, hcp, hdl, rfl⟩⟩
      next hdl => exact Or.inl h
    next hcp => exact Or.inl h

theorem mem_freeStep {P : Params} {ln : MS2Line} {bs : Char} {acc : List Tok} {u : Tok}
    (h : u ∈ freeStep P ln acc bs) : u ∈ acc ∨ FreeNew P ln bs u := by
  unfold freeStep at h
  rcases mem_freeStage4 h with h' | hnew
  · rcases mem_freeStage3 h' with h'' | hnew
    · rcases mem_freeStage2 h'' with h''' | hnew
      · rcases mem_freeStage1 h''' with h4 | hnew
        · exact Or.inl h4
        · exact Or.inr (Or.inl hnew)
      · exact Or.inr (Or.inr (Or.inl hnew))
    · exact Or.inr (Or.inr (Or.inr (Or.inl hnew)))
  · exact Or.inr (Or.inr (Or.inr (Or.inr hnew)))

theorem mem_foldl_freeStep {P : Params} {ln : MS2Line} :
    ∀ {bs : List Char} {acc : List Tok} {u : Tok}, u ∈ bs.foldl (freeStep P ln) acc →
      u ∈ acc ∨ ∃ b ∈ bs, FreeNew P ln b u := by
  intro bs
  induction bs with
  | nil => exact fun h => Or.inl h
  | cons b bs ih =>
      intro acc u h
      rcases ih h with h' | ⟨b', hb', hnew⟩
      · rcases mem_freeStep h' with h'' | hnew
        · exact Or.inl h''
        · exact Or.inr ⟨b, List.mem_cons_self _ _, hnew⟩
      · exact Or.inr ⟨b', List.mem_cons_of_mem _ hb', hnew⟩

/-- The tokens `lossTokens` may contain, with their conditions. -/
def LossNew (P : Params) (ln : MS2Line) (u : Tok) : Prop :=
  inWinB P u.mz = true ∧
    (u = tokMH2O P ln
      ∨ ((ln.chem3 = .P ∨ ln.chem5 = .P) ∧
          (u = tokMPn P ln ∨ u = tokMH2OPn P ln
            ∨ (1 < zOf ln ∧ (u = tokMPc P ln ∨ u = tokMH2OPc P ln))))
      ∨ (¬(ln.chem3 = .P ∨ ln.chem5 = .P) ∧ ln.chem3 = .cP ∧ 1 < zOf ln ∧ u = tokMPc P ln))

theorem mem_lossTokens {P : Params} {ln : MS2Line} {u : Tok} (h : u ∈ lossTokens P ln) :
    LossNew P ln u := by
  unfold lossTokens at h
  have base : ∀ v : Tok, v ∈ winAppend P [] (tokMH2O P ln) →
      inWinB P v.mz = true ∧ v = tokMH2O P ln := by
    intro v hv
    rcases mem_winAppend hv with hv' | ⟨rfl, hw⟩
    · simp at hv'
    · exact ⟨hw, rfl⟩
  split at h
  next hch =>
    split at h
    next hz =>
      rcases mem_winAppend h with h' | ⟨rfl, hw⟩
      · rcases mem_winAppend h' with h'' | ⟨rfl, hw⟩
        · rcases mem_winAppend h'' with h''' | ⟨rfl, hw⟩
          · rcases mem_winAppend h''' with h4 | ⟨rfl, hw⟩
            · obtain ⟨hw, rfl⟩ := base _ h4
              exact ⟨hw, Or.inl rfl⟩
            · exact ⟨hw, Or.inr (Or.inl ⟨hch, Or.inl rfl⟩)⟩
          · exact ⟨hw, Or.inr (Or.inl ⟨hch, Or.inr (Or.inl rfl)⟩)⟩
        · exact ⟨hw, Or.inr (Or.inl ⟨hch, Or.inr (Or.inr ⟨hz, Or.inl rfl⟩)⟩)⟩
      · exact ⟨hw, Or.inr (Or.inl ⟨hch, Or.inr (Or.inr ⟨hz, Or.inr rfl⟩)⟩)⟩
    next hz =>
      rcases mem_winAppend h with h' | ⟨rfl, hw⟩
      · rcases mem_winAppend h' with h'' | ⟨rfl, hw⟩
        · obtain ⟨hw, rfl⟩ := base _ h''
          exact ⟨hw, Or.inl rfl⟩
        · exact ⟨hw, Or.inr (Or.inl ⟨hch, Or.inl rfl⟩)⟩
      · exact ⟨hw, Or.inr (Or.inl ⟨hch, Or.inr (Or.inl rfl)⟩)⟩
  next hch =>
    split at h
    next hcp =>
      split at h
      next hz =>
        rcases mem_winAppend h with h' | ⟨rfl, hw⟩
        · obtain ⟨hw, rfl⟩ := base _ h'
          exact ⟨hw, Or.inl rfl⟩
        · exact ⟨hw, Or.inr (Or.inr ⟨hch, hcp, hz, rfl⟩)⟩
      next hz =>
        obtain ⟨hw, rfl⟩ := base _ h
        exact ⟨hw, Or.inl rfl⟩
    next hcp =>
      obtain ⟨hw, rfl⟩ := base _ h
      exact ⟨hw, Or.inl rfl⟩

theorem mem_cidChargeTokens {P : Params} {ln : MS2Line} {ion : CIDIon} {i : ℕ}
    {mf m3 : ℚ} {c : List Char} {u : Tok} (h : u ∈ cidChargeTokens P ln ion i mf m3 c) :
    strVal c ≤ zOf ln ∧ inWinB P u.mz = true ∧ u.label = cidLabel P.mode ion i c ∧
      ((ion ≠ .yP ∧ ion ≠ .zP ∧
          u = ⟨Site.cid ion i c false, cidLabel P.mode ion i c, cidMz P.mode mf (strVal c : ℚ)⟩)
        ∨ u = ⟨Site.cid ion i c true, cidLabel P.mode ion i c,
            cidMz3 P.mode m3 (strVal c : ℚ)⟩) := by
  unfold cidChargeTokens at h
  split at h
  next hcv =>
    rcases List.mem_append.mp h with h' | h'
    · split at h'
      next hcond =>
        rcases List.mem_singleton.mp h' with rfl
        exact ⟨hcv, hcond.1, rfl, Or.inl ⟨hcond.2.1, hcond.2.2, rfl⟩⟩
      next => simp at h'
    · split at h'
      next hcond =>
        rcases List.mem_singleton.mp h' with rfl
        exact ⟨hcv, hcond, rfl, Or.inr rfl⟩
      next => simp at h'
  next hcv => simp at h

theorem mem_cidTokens {P : Params} {ln : MS2Line} {u : Tok} (h : u ∈ cidTokens P ln) :
    ∃ ion ∈ P.series.dedup, ∃ i ∈ List.range' 1 (ln.seq.length - 1), ∃ charges,
      dictFind P.chargeDic (natChars i) = some charges ∧ ∃ c ∈ charges,
        u ∈ cidChargeTokens P ln ion i
          (cidFragMasses P ln ion i).1 (cidFragMasses P ln ion i).2 c := by
  unfold cidTokens at h
  obtain ⟨ion, hion, h1⟩ := List.mem_flatMap.mp h
  obtain ⟨i, hi, h2⟩ := List.mem_flatMap.mp h1
  refine ⟨ion, hion, i, hi, ?_⟩
  rcases hfind : dictFind P.chargeDic (natChars i) with _ | charges
  · rw [hfind] at h2; simp at h2
  · rw [hfind] at h2
    obtain ⟨c, hc, h3⟩ := List.mem_flatMap.mp h2
    exact ⟨charges, rfl, c, hc, h3⟩

/-- The master membership split: every token of the output comes from the
loss block, the free-base loop, or the CID enumeration. -/
theorem mem_frag {P : Params} {ln : MS2Line} {u : Tok} (h : u ∈ fragment_MS2_masses P ln) :
    LossNew P ln u ∨ (∃ b ∈ uniqueSeq ln, FreeNew P ln b u) ∨ u ∈ cidTokens P ln := by
  unfold fragment_MS2_masses at h
  rcases List.mem_append.mp h with h' | h'
  · rcases mem_foldl_freeStep h' with h'' | hnew
    · exact Or.inl (mem_lossTokens h'')
    · exact Or.inr (Or.inl hnew)
  · exact Or.inr (Or.inr h')

theorem inWin_iff {P : Params} {x : ℚ} : inWinB P x = true ↔ P.mzlow ≤ x ∧ x ≤ P.mzhigh := by
  simp [inWinB]

/-- For every residue of the sequence, a token with the standalone free-base
label and m/z ends up in the free-base fold (`freeStage1` either appends it
or finds an equal label/m/z pair already present). -/
theorem freeStage1_label (P : Params) (ln : MS2Line) (bs : Char) (acc : List Tok) :
    ∃ u ∈ freeStage1 P ln bs acc,
      u.label = (tokFree P ln bs).label ∧ u.mz = (tokFree P ln bs).mz := by
  unfold freeStage1
  split
  · exact ⟨tokFree P ln bs, List.mem_append_right _ (List.mem_singleton_self _), rfl, rfl⟩
  · unfold appendIfNew
    split
    next hany =>
      obtain ⟨u, hu, hprop⟩ := List.any_eq_true.mp hany
      exact ⟨u, hu, of_decide_eq_true hprop⟩
    next =>
      exact ⟨tokFree P ln bs, List.mem_append_right _ (List.mem_singleton_self _), rfl, rfl⟩

theorem freeBase_mem_fold (P : Params) (ln : MS2Line) :
    ∀ (bs : List Char) (acc : List Tok) (b : Char), b ∈ bs →
      ∃ u ∈ bs.foldl (freeStep P ln) acc,
        u.label = (tokFree P ln b).label ∧ u.mz = (tokFree P ln b).mz := by
  intro bs
  induction bs with
  | nil => intro acc b hb; simp at hb
  | cons b' bs' ih =>
      intro acc b hb
      rcases List.mem_cons.mp hb with rfl | hb'
      · obtain ⟨u, hu, hlbl, hmz⟩ := freeStage1_label P ln b acc
        have hu2 : u ∈ freeStep P ln acc b :=
          (((subset_freeStage2 P ln b _).trans (subset_freeStage3 P ln b _)).trans
            (subset_freeStage4 P ln b _)) hu
        exact ⟨u, subset_foldl_freeStep P ln bs' _ hu2, hlbl, hmz⟩
      · exact ih _ b hb'

/-- Every residue of the candidate contributes its standalone free-base
label and m/z to the output (the source performs no window test on it). -/
theorem freeBase_mem_frag (P : Params) (ln : MS2Line) (b : Char) (hb : b ∈ ln.seq) :
    ∃ u ∈ fragment_MS2_masses P ln,
      u.label = (tokFree P ln b).label ∧ u.mz = (tokFree P ln b).mz := by
  obtain ⟨u, hu, hlbl, hmz⟩ := freeBase_mem_fold P ln (uniqueSeq ln) (lossTokens P ln) b
    (List.mem_dedup.mpr hb)
  exact ⟨u, List.mem_append_left _ hu, hlbl, hmz⟩

/-- C1 (amended): every emitted ion lies in its level's window EXCEPT the
standalone free-base ions, which the source appends without any window test;
the MS1 filter moreover tests only the light m/z, strictly. -/
theorem claim_C1_amended :
    (∀ (mode : Mode) (ntsL : Char → ℚ) (ntsH : Option (Char → ℚ)) (mzlow mzhigh : ℚ)
      (ls : List Cand) (o : MS1Out), o ∈ lines_final mode ntsL ntsH mzlow mzhigh ls →
        mzlow < o.mzLight ∧ o.mzLight < mzhigh) ∧
    (∀ (P : Params) (ln : MS2Line) (u : Tok), u ∈ fragment_MS2_masses P ln →
      (∃ b, u.site = Site.freeBase b) ∨ (P.mzlow ≤ u.mz ∧ u.mz ≤ P.mzhigh)) := by
  constructor
  · intro mode ntsL ntsH mzlow mzhigh ls o ho
    simp only [lines_final, List.mem_filterMap] at ho
    obtain ⟨c, hc, hsome⟩ := ho
    split at hsome
    next hcond =>
      obtain rfl := Option.some.inj hsome
      exact hcond
    next => exact absurd hsome (by simp)
  · intro P ln u hu
    rcases mem_frag hu with ⟨hw, _⟩ | ⟨b, hb, hnew⟩ | hcid
    · exact Or.inr (inWin_iff.mp hw)
    · rcases hnew with rfl | ⟨_, hw, _⟩ | ⟨hw, rfl⟩ | ⟨hw, hcase⟩
      · exact Or.inl ⟨b, rfl⟩
      · exact Or.inr (inWin_iff.mp hw)
      · exact Or.inr (inWin_iff.mp hw)
      · exact Or.inr (inWin_iff.mp hw)
    · obtain ⟨ion, _, i, _, charges, _, c, _, hcc⟩ := mem_cidTokens hcid
      exact Or.inr (inWin_iff.mp (mem_cidChargeTokens hcc).2.1)

/-- A negative-mode configuration whose MS2 window is `[300, 2000]`, with a
free-base mass of 50 Da. -/
def P0 : Params :=
  ⟨.neg, 300, 2000, [], [], fun _ => 320, fun _ => 320, fun _ => 50, fun _ => 50⟩

/-- A light single-residue candidate at charge 1. -/
def ln0 : MS2Line := ⟨350, false, [1], ['A'], .OH, .OH⟩

/-- C1 (counterexample): the standalone free-base ion `A(-1)` with m/z 50 is
emitted although 50 lies far below the MS2 window lower bound 300. -/
theorem claim_C1_counterexample :
    ∃ u ∈ fragment_MS2_masses P0 ln0, ¬(P0.mzlow ≤ u.mz ∧ u.mz ≤ P0.mzhigh) := by
  obtain ⟨u, hu, _, hmz⟩ := freeBase_mem_frag P0 ln0 'A' (by decide)
  refine ⟨u, hu, ?_⟩
  rw [hmz]
  norm_num [tokFree, baseDic, P0, ln0, freebaseCorr]

/-- Witness for `claim_C1_amended` at the concrete `M-H2O` token of
`P0`/`ln0`. -/
theorem claim_C1_witness :
    (∃ b, (tokMH2O P0 ln0).site = Site.freeBase b) ∨
      (P0.mzlow ≤ (tokMH2O P0 ln0).mz ∧ (tokMH2O P0 ln0).mz ≤ P0.mzhigh) := by
  have h1 : inWinB P0 (tokMH2O P0 ln0).mz = true := by
    rw [inWin_iff]
    norm_num [tokMH2O, P0, ln0, dicMH2O, zOf, digitsVal, eleH, eleO]
  have h2 : tokMH2O P0 ln0 ∈ lossTokens P0 ln0 := by
    unfold lossTokens
    have hch : ¬(ln0.chem3 = Chem3.P ∨ ln0.chem5 = Chem5.P) := by decide
    have hcp : ¬(ln0.chem3 = Chem3.cP) := by decide
    rw [if_neg hch, if_neg hcp, winAppend, if_pos h1]
    exact List.mem_singleton_self _
  exact claim_C1_amended.2 P0 ln0 (tokMH2O P0 ln0) (lossTokens_subset_frag P0 ln0 h2)

/-- Branch conditions attached to the phosphate-loss provenance sites: the
neutral phosphate losses require a plain-phosphate terminus, the charged ones
a precursor charge above 1. -/
theorem frag_sites {P : Params} {ln : MS2Line} {u : Tok} (hu : u ∈ fragment_MS2_masses P ln) :
    (u.site = Site.mpNeutral → (ln.chem3 = Chem3.P ∨ ln.chem5 = Chem5.P)) ∧
    (u.site = Site.mh2opNeutral → (ln.chem3 = Chem3.P ∨ ln.chem5 = Chem5.P)) ∧
    (u.site = Site.mh2opCharged → (ln.chem3 = Chem3.P ∨ ln.chem5 = Chem5.P) ∧ 1 < zOf ln) ∧
    (u.site = Site.mpCharged → 1 < zOf ln) := by
  rcases mem_frag hu with ⟨hw, hcases⟩ | ⟨b, hb, hnew⟩ | hcid
  · rcases hcases with rfl | ⟨hch, hc2⟩ | ⟨hch, hcp, hz, rfl⟩
    · simp [tokMH2O]
    · rcases hc2 with rfl | rfl | ⟨hz, rfl | rfl⟩
      · exact ⟨fun _ => hch, by simp [tokMPn], by simp [tokMPn], by simp [tokMPn]⟩
      · exact ⟨by simp [tokMH2OPn], fun _ => hch, by simp [tokMH2OPn], by simp [tokMH2OPn]⟩
      · exact ⟨by simp [tokMPc], by simp [tokMPc], by simp [tokMPc], fun _ => hz⟩
      · exact ⟨by simp [tokMH2OPc], by simp [tokMH2OPc], fun _ => ⟨hch, hz⟩, by simp [tokMH2OPc]⟩
    · exact ⟨by simp [tokMPc], by simp [tokMPc], by simp [tokMPc], fun _ => hz⟩
  · rcases hnew with rfl | ⟨hz, hw, rfl | ⟨hch, rfl⟩ | ⟨hch, hcp, rfl | ⟨hdl, rfl⟩⟩⟩ |
      ⟨hw, rfl⟩ | ⟨hw, ⟨hch, rfl⟩ | ⟨hch, hcp, hdl, rfl⟩⟩ <;>
      simp [tokFree, tokMB, tokMPBc, tokMBBc, tokMBH, tokMPBn, tokMBBn]
  · obtain ⟨ion, _, i, _, charges, _, c, _, hcc⟩ := mem_cidTokens hcid
    rcases (mem_cidChargeTokens hcc).2.2.2 with ⟨_, _, rfl⟩ | rfl <;> simp

theorem tokMPn_mem_loss {P : Params} {ln : MS2Line}
    (hch : ln.chem3 = Chem3.P ∨ ln.chem5 = Chem5.P)
    (hw : inWinB P (tokMPn P ln).mz = true) : tokMPn P ln ∈ lossTokens P ln := by
  unfold lossTokens
  rw [if_pos hch]
  have h0 : tokMPn P ln ∈ winAppend P (winAppend P [] (tokMH2O P ln)) (tokMPn P ln) := by
    rw [winAppend, if_pos hw]
    exact List.mem_append_right _ (List.mem_singleton_self _)
  have h1 := subset_winAppend P _ (tokMH2OPn P ln) h0
  split
  · exact subset_winAppend P _ _ (subset_winAppend P _ _ h1)
  · exact h1

theorem tokMH2OPn_mem_loss {P : Params} {ln : MS2Line}
    (hch : ln.chem3 = Chem3.P ∨ ln.chem5 = Chem5.P)
    (hw : inWinB P (tokMH2OPn P ln).mz = true) : tokMH2OPn P ln ∈ lossTokens P ln := by
  unfold lossTokens
  rw [if_pos hch]
  have h1 : tokMH2OPn P ln ∈
      winAppend P (winAppend P (winAppend P [] (tokMH2O P ln)) (tokMPn P ln)) (tokMH2OPn P ln) := by
    rw [winAppend, if_pos hw]
    exact List.mem_append_right _ (List.mem_singleton_self _)
  split
  · exact subset_winAppend P _ _ (subset_winAppend P _ _ h1)
  · exact h1

theorem tokMPc_mem_loss_P {P : Params} {ln : MS2Line}
    (hch : ln.chem3 = Chem3.P ∨ ln.chem5 = Chem5.P) (hz : 1 < zOf ln)
    (hw : inWinB P (tokMPc P ln).mz = true) : tokMPc P ln ∈ lossTokens P ln := by
  unfold lossTokens
  rw [if_pos hch, if_pos hz]
  refine subset_winAppend P _ _ ?_
  rw [winAppend, if_pos hw]
  exact List.mem_append_right _ (List.mem_singleton_self _)

theorem tokMH2OPc_mem_loss {P : Params} {ln : MS2Line}
    (hch : ln.chem3 = Chem3.P ∨ ln.chem5 = Chem5.P) (hz : 1 < zOf ln)
    (hw : inWinB P (tokMH2OPc P ln).mz = true) : tokMH2OPc P ln ∈ lossTokens P ln := by
  unfold lossTokens
  rw [if_pos hch, if_pos hz, winAppend, if_pos hw]
  exact List.mem_append_right _ (List.mem_singleton_self _)

theorem tokMPc_mem_loss_cP {P : Params} {ln : MS2Line}
    (hch : ¬(ln.chem3 = Chem3.P ∨ ln.chem5 = Chem5.P)) (hcp : ln.chem3 = Chem3.cP)
    (hz : 1 < zOf ln) (hw : inWinB P (tokMPc P ln).mz = true) :
    tokMPc P ln ∈ lossTokens P ln := by
  unfold lossTokens
  rw [if_neg hch, if_pos hcp, if_pos hz, winAppend, if_pos hw]
  exact List.mem_append_right _ (List.mem_singleton_self _)

/-- C5: phosphate-loss production.  With a plain phosphate on either
terminus, the neutral `M-PO3H` and `M-H2O-PO4H3` losses are produced
(windowed), the charged `M-PO3⁻` and `M-PO4H2⁻` losses are produced exactly
when the precursor charge exceeds 1 (windowed, at charge `z-1` with the
claimed charge-reduced mass), and with a 3'-cyclic-phosphate terminus (5' not
phosphate) only the charged `M-PO3⁻` loss is produced, never the neutral
phosphate losses. -/
theorem claim_C5_phosphate_losses (P : Params) (ln : MS2Line) :
    ((ln.chem3 = Chem3.P ∨ ln.chem5 = Chem5.P) →
      (inWinB P (tokMPn P ln).mz = true → tokMPn P ln ∈ fragment_MS2_masses P ln) ∧
      (inWinB P (tokMH2OPn P ln).mz = true → tokMH2OPn P ln ∈ fragment_MS2_masses P ln) ∧
      (1 < zOf ln → inWinB P (tokMPc P ln).mz = true →
        tokMPc P ln ∈ fragment_MS2_masses P ln) ∧
      (1 < zOf ln → inWinB P (tokMH2OPc P ln).mz = true →
        tokMH2OPc P ln ∈ fragment_MS2_masses P ln) ∧
      (¬1 < zOf ln → ∀ u ∈ fragment_MS2_masses P ln,
        u.site ≠ Site.mpCharged ∧ u.site ≠ Site.mh2opCharged)) ∧
    (ln.chem3 = Chem3.cP → ln.chem5 ≠ Chem5.P →
      (∀ u ∈ fragment_MS2_masses P ln,
        u.site ≠ Site.mpNeutral ∧ u.site ≠ Site.mh2opNeutral ∧ u.site ≠ Site.mh2opCharged) ∧
      (1 < zOf ln → inWinB P (tokMPc P ln).mz = true →
        tokMPc P ln ∈ fragment_MS2_masses P ln) ∧
      (¬1 < zOf ln → ∀ u ∈ fragment_MS2_masses P ln, u.site ≠ Site.mpCharged)) ∧
    (1 < zOf ln →
      (tokMPc P ln).mz
          = (ln.massPrec * (zOf ln : ℚ) + chargeCorr P.mode - (eleO * 3 + eleP))
            / ((zOf ln : ℚ) - 1) ∧
      (tokMH2OPc P ln).mz
          = (ln.massPrec * (zOf ln : ℚ) + chargeCorr P.mode - (eleP + eleO * 4 + eleH * 2))
            / ((zOf ln : ℚ) - 1)) := by
  refine ⟨?_, ?_, ?_⟩
  · intro hch
    refine ⟨fun hw => lossTokens_subset_frag P ln (tokMPn_mem_loss hch hw),
      fun hw => lossTokens_subset_frag P ln (tokMH2OPn_mem_loss hch hw),
      fun hz hw => lossTokens_subset_frag P ln (tokMPc_mem_loss_P hch hz hw),
      fun hz hw => lossTokens_subset_frag P ln (tokMH2OPc_mem_loss hch hz hw),
      fun hz u hu => ?_⟩
    have hs := frag_sites hu
    exact ⟨fun h => hz (hs.2.2.2 h), fun h => hz (hs.2.2.1 h).2⟩
  · intro hcp h5
    have hch : ¬(ln.chem3 = Chem3.P ∨ ln.chem5 = Chem5.P) := by
      rintro (h | h)
      · rw [hcp] at h; cases h
      · exact h5 h
    refine ⟨fun u hu => ?_, fun hz hw => lossTokens_subset_frag P ln
      (tokMPc_mem_loss_cP hch hcp hz hw), fun hz u hu => fun h => hz ((frag_sites hu).2.2.2 h)⟩
    have hs := frag_sites hu
    exact ⟨fun h => hch (hs.1 h), fun h => hch (hs.2.1 h), fun h => hch (hs.2.2.1 h).1⟩
  · intro hz
    have hcl : ((clOf ln : ℕ) : ℚ) = (zOf ln : ℚ) - 1 := by
      unfold clOf
      have : (1 : ℕ) ≤ zOf ln := le_of_lt hz
      push_cast [Nat.cast_sub this]
      ring
    constructor
    · simp only [tokMPc, dicMPO3, hcl]
      ring
    · simp only [tokMH2OPc, dicMPO4H2, hcl]
      ring

/-- Witness context for `claim_C5_phosphate_losses`: a charge-2 candidate
with a 3'-phosphate, and a charge-2 candidate with a 3'-cyclic-phosphate. -/
def lnP2 : MS2Line := ⟨400, false, [2], ['A'], .OH, .P⟩

def lnCP2 : MS2Line := ⟨400, false, [2], ['A'], .OH, .cP⟩

/-- A wide-window configuration for the C5 witness. -/
def P5 : Params :=
  ⟨.neg, 1, 100000, [], [], fun _ => 320, fun _ => 320, fun _ => 50, fun _ => 50⟩

/-- Witness for `claim_C5_phosphate_losses`: at the concrete charge-2
phosphate candidate the neutral and charged phosphate losses are all in the
output, and at the cyclic-phosphate candidate the charged loss is in the
output. -/
theorem claim_C5_witness :
    tokMPn P5 lnP2 ∈ fragment_MS2_masses P5 lnP2 ∧
    tokMPc P5 lnP2 ∈ fragment_MS2_masses P5 lnP2 ∧
    tokMPc P5 lnCP2 ∈ fragment_MS2_masses P5 lnCP2 := by
  have hchP : lnP2.chem3 = Chem3.P ∨ lnP2.chem5 = Chem5.P := Or.inl rfl
  have hz : 1 < zOf lnP2 := by decide
  have hzc : 1 < zOf lnCP2 := by decide
  have hw1 : inWinB P5 (tokMPn P5 lnP2).mz = true := by
    rw [inWin_iff]
    norm_num [tokMPn, P5, lnP2, dicMPO3H, zOf, digitsVal, eleH, eleO, eleP]
  have hw2 : inWinB P5 (tokMPc P5 lnP2).mz = true := by
    rw [inWin_iff]
    norm_num [tokMPc, P5, lnP2, dicMPO3, chargeCorr, zOf, clOf, clTokOf, digitsVal,
      eleH, eleO, eleP]
  have hw3 : inWinB P5 (tokMPc P5 lnCP2).mz = true := by
    rw [inWin_iff]
    norm_num [tokMPc, P5, lnCP2, dicMPO3, chargeCorr, zOf, clOf, clTokOf, digitsVal,
      eleH, eleO, eleP]
  refine ⟨((claim_C5_phosphate_losses P5 lnP2).1 hchP).1 hw1,
    ((claim_C5_phosphate_losses P5 lnP2).1 hchP).2.2.1 hz hw2,
    ((claim_C5_phosphate_losses P5 lnCP2).2.1 rfl (by decide)).2.1 hzc hw3⟩

/-! ### Label distinctness machinery (claim C6) -/

theorem strVal_map_digitChar {ds : List ℕ} (hdig : ∀ d ∈ ds, d < 10) :
    strVal (ds.map digitChar) = digitsVal ds := by
  unfold strVal
  rw [List.map_map]
  have h : ds.map (charDigitVal ∘ digitChar) = ds.map id :=
    List.map_congr_left fun d hd => charDigitVal_digitChar (hdig d hd)
  rw [h, List.map_id]

theorem mkLabel_inj {n1 n2 cp1 cp2 : List Char} (hlen : n1.length = n2.length)
    (h : mkLabel n1 cp1 = mkLabel n2 cp2) : n1 = n2 ∧ cp1 = cp2 := by
  unfold mkLabel at h
  obtain ⟨h1, h2⟩ := List.append_inj h hlen
  injection h2 with _ h3
  exact ⟨h1, List.append_cancel_right h3⟩

/-- The original charge token and the canonical rendering of
`charge_prec - 1` are distinct strings whenever `charge_prec > 1` (their
integer values differ). -/
theorem mapDigit_ne_natChars {ln : MS2Line}
    (hdig : ∀ d ∈ ln.chargeDigits, d < 10) (hz : 1 < zOf ln) :
    ln.chargeDigits.map digitChar ≠ natChars (clOf ln) := by
  intro h
  have h1 := strVal_map_digitChar hdig
  rw [h, strVal_natChars] at h1
  unfold clOf at h1
  unfold zOf at h1 hz
  omega

theorem precOf_ne_clTokOf {P : Params} {ln : MS2Line}
    (hdig : ∀ d ∈ ln.chargeDigits, d < 10) (hz : 1 < zOf ln) :
    precOf P ln ≠ clTokOf P ln := by
  intro h
  unfold precOf clTokOf precTok clTok at h
  injection h with _ h2
  exact mapDigit_ne_natChars hdig hz h2

theorem natChars_cons (n : ℕ) : ∃ d ds, natChars n = d :: ds ∧ d.isDigit = true := by
  rcases hn : natChars n with _ | ⟨d, ds⟩
  · exact absurd hn (natChars_ne_nil n)
  · exact ⟨d, ds, rfl, natChars_all_digits n d (hn ▸ List.mem_cons_self d ds)⟩

theorem lastOf_ne_P {ln : MS2Line} (hP : 'P' ∉ ln.seq) : lastOf ln ≠ 'P' := by
  unfold lastOf
  have hm := List.getLastD_mem_cons ln.seq ' '
  rcases List.mem_cons.mp hm with h | h
  · rw [h]; decide
  · intro he
    rw [he] at h
    exact hP h

theorem tok_ne_of_site {t u : Tok} (h : t.site ≠ u.site) : t ≠ u :=
  fun he => h (he ▸ rfl)

/-- Sites an accumulator token may carry after the residues `processed` have
been handled by the free-base loop (the charged phosphate-and-base loss is
also emitted for the terminal residue in the cyclic-phosphate branch). -/
def SiteIn (ln : MS2Line) (processed : List Char) (t : Tok) : Prop :=
  t.site = Site.mh2o ∨ t.site = Site.mpNeutral ∨ t.site = Site.mh2opNeutral ∨
  t.site = Site.mpCharged ∨ t.site = Site.mh2opCharged ∨
  t.site = Site.basePhosCharged (lastOf ln) ∨
  ∃ b ∈ processed,
    t.site = Site.freeBase b ∨ t.site = Site.baseLossCharged b ∨
    t.site = Site.basePhosCharged b ∨ t.site = Site.doubleLossCharged b ∨
    t.site = Site.baseLossNeutral b ∨ t.site = Site.basePhosNeutral b ∨
    t.site = Site.doubleLossNeutral b

theorem siteIn_mono {ln : MS2Line} {p1 p2 : List Char} (hsub : p1 ⊆ p2) {t : Tok}
    (h : SiteIn ln p1 t) : SiteIn ln p2 t := by
  unfold SiteIn at *
  rcases h with h | h | h | h | h | h | ⟨b, hb, h⟩
  exacts [Or.inl h, Or.inr (Or.inl h), Or.inr (Or.inr (Or.inl h)),
    Or.inr (Or.inr (Or.inr (Or.inl h))), Or.inr (Or.inr (Or.inr (Or.inr (Or.inl h)))),
    Or.inr (Or.inr (Or.inr (Or.inr (Or.inr (Or.inl h))))),
    Or.inr (Or.inr (Or.inr (Or.inr (Or.inr (Or.inr ⟨b, hsub hb, h⟩)))))]

theorem nodup_appendIfNew {acc : List Tok} {t : Tok} (h : acc.Nodup) :
    (appendIfNew acc t).Nodup := by
  unfold appendIfNew
  split
  next => exact h
  next hany =>
    rw [List.nodup_append]
    refine ⟨h, List.nodup_singleton t, ?_⟩
    intro a ha hb
    rw [List.mem_singleton.mp hb] at ha
    exact hany (List.any_eq_true.mpr ⟨t, ha, by simp⟩)

theorem nodup_winAppendIfNew {P : Params} {acc : List Tok} {t : Tok} (h : acc.Nodup) :
    (winAppendIfNew P acc t).Nodup := by
  unfold winAppendIfNew
  split
  · exact nodup_appendIfNew h
  · exact h

theorem nodup_plainAppend {acc : List Tok} {t : Tok} (h : acc.Nodup) (hf : t ∉ acc) :
    (acc ++ [t]).Nodup := by
  rw [List.nodup_append]
  refine ⟨h, List.nodup_singleton t, ?_⟩
  intro a ha hb
  rw [List.mem_singleton.mp hb] at ha
  exact hf ha

theorem nodup_winAppend (P : Params) {acc : List Tok} (t : Tok) (h : acc.Nodup)
    (hf : t ∉ acc) : (winAppend P acc t).Nodup := by
  unfold winAppend
  split
  · exact nodup_plainAppend h hf
  · exact h

theorem nodup_lossTokens (P : Params) (ln : MS2Line) : (lossTokens P ln).Nodup := by
  unfold lossTokens
  have n1 : (winAppend P [] (tokMH2O P ln)).Nodup :=
    nodup_winAppend P (tokMH2O P ln) List.nodup_nil (by simp)
  have m1 : ∀ u ∈ winAppend P [] (tokMH2O P ln), u = tokMH2O P ln := by
    intro u hu
    rcases mem_winAppend hu with h | ⟨h, _⟩
    · simp at h
    · exact h
  split
  · have n2 := nodup_winAppend P (tokMPn P ln) n1 (by
      intro hmem
      have := m1 _ hmem
      exact tok_ne_of_site (by simp [tokMPn, tokMH2O]) this)
    have m2 : ∀ u ∈ winAppend P (winAppend P [] (tokMH2O P ln)) (tokMPn P ln),
        u = tokMH2O P ln ∨ u = tokMPn P ln := by
      intro u hu
      rcases mem_winAppend hu with h | ⟨h, _⟩
      · exact Or.inl (m1 _ h)
      · exact Or.inr h
    have n3 := nodup_winAppend P (tokMH2OPn P ln) n2 (by
      intro hmem
      rcases m2 _ hmem with h | h
      · exact tok_ne_of_site (by simp [tokMH2OPn, tokMH2O]) h
      · exact tok_ne_of_site (by simp [tokMH2OPn, tokMPn]) h)
    have m3 : ∀ u ∈ winAppend P (winAppend P (winAppend P [] (tokMH2O P ln)) (tokMPn P ln))
        (tokMH2OPn P ln), u = tokMH2O P ln ∨ u = tokMPn P ln ∨ u = tokMH2OPn P ln := by
      intro u hu
      rcases mem_winAppend hu with h | ⟨h, _⟩
      · rcases m2 _ h with h' | h'
        exacts [Or.inl h', Or.inr (Or.inl h')]
      · exact Or.inr (Or.inr h)
    split
    · have n4 := nodup_winAppend P (tokMPc P ln) n3 (by
        intro hmem
        rcases m3 _ hmem with h | h | h
        · exact tok_ne_of_site (by simp [tokMPc, tokMH2O]) h
        · exact tok_ne_of_site (by simp [tokMPc, tokMPn]) h
        · exact tok_ne_of_site (by simp [tokMPc, tokMH2OPn]) h)
      refine nodup_winAppend P (tokMH2OPc P ln) n4 (by
        intro hmem
        rcases mem_winAppend hmem with h | ⟨h, _⟩
        · rcases m3 _ h with h' | h' | h'
          · exact tok_ne_of_site (by simp [tokMH2OPc, tokMH2O]) h'
          · exact tok_ne_of_site (by simp [tokMH2OPc, tokMPn]) h'
          · exact tok_ne_of_site (by simp [tokMH2OPc, tokMH2OPn]) h'
        · exact tok_ne_of_site (by simp [tokMH2OPc, tokMPc]) h)
    · exact n3
  · split
    · split
      · refine nodup_winAppend P (tokMPc P ln) n1 (by
          intro hmem
          exact tok_ne_of_site (by simp [tokMPc, tokMH2O]) (m1 _ hmem))
      · exact n1
    · exact n1

theorem lossTokens_siteIn (P : Params) (ln : MS2Line) :
    ∀ t ∈ lossTokens P ln, SiteIn ln [] t := by
  intro t ht
  rcases mem_lossTokens ht with ⟨_, rfl | ⟨_, rfl | rfl | ⟨_, rfl | rfl⟩⟩ | ⟨_, _, _, rfl⟩⟩ <;>
    simp [SiteIn, tokMH2O, tokMPn, tokMH2OPn, tokMPc, tokMH2OPc]

theorem siteIn_of_b {ln : MS2Line} {processed : List Char} {t : Tok} {bs : Char}
    (hb : bs ∈ processed)
    (h : t.site = Site.freeBase bs ∨ t.site = Site.baseLossCharged bs ∨
      t.site = Site.basePhosCharged bs ∨ t.site = Site.doubleLossCharged bs ∨
      t.site = Site.baseLossNeutral bs ∨ t.site = Site.basePhosNeutral bs ∨
      t.site = Site.doubleLossNeutral bs) : SiteIn ln processed t :=
  Or.inr (Or.inr (Or.inr (Or.inr (Or.inr (Or.inr ⟨bs, hb, h⟩)))))

theorem siteIn_lastPhos {ln : MS2Line} {processed : List Char} {t : Tok}
    (h : t.site = Site.basePhosCharged (lastOf ln)) : SiteIn ln processed t :=
  Or.inr (Or.inr (Or.inr (Or.inr (Or.inr (Or.inl h)))))

theorem siteIn_ne_freeBase {ln : MS2Line} {processed : List Char} {t : Tok} {bs : Char}
    (hs : SiteIn ln processed t) (hb : bs ∉ processed) : t.site ≠ Site.freeBase bs := by
  intro he
  unfold SiteIn at hs
  rcases hs with h | h | h | h | h | h | ⟨b', hb', hc⟩ <;> simp_all

theorem siteIn_ne_baseLossNeutral {ln : MS2Line} {processed : List Char} {t : Tok} {bs : Char}
    (hs : SiteIn ln processed t) (hb : bs ∉ processed) :
    t.site ≠ Site.baseLossNeutral bs := by
  intro he
  unfold SiteIn at hs
  rcases hs with h | h | h | h | h | h | ⟨b', hb', hc⟩ <;> simp_all

theorem freeStage1_nodup {P : Params} {ln : MS2Line} {processed : List Char} {bs : Char}
    {acc : List Tok} (hnd : acc.Nodup) (hs : ∀ t ∈ acc, SiteIn ln processed t)
    (hb : bs ∉ processed) : (freeStage1 P ln bs acc).Nodup := by
  unfold freeStage1
  split
  · exact nodup_plainAppend hnd (fun hmem => siteIn_ne_freeBase (hs _ hmem) hb rfl)
  · exact nodup_appendIfNew hnd

theorem freeStage1_siteIn {P : Params} {ln : MS2Line} {processed : List Char} {bs : Char}
    {acc : List Tok} (hs : ∀ t ∈ acc, SiteIn ln (processed ++ [bs]) t) :
    ∀ t ∈ freeStage1 P ln bs acc, SiteIn ln (processed ++ [bs]) t := by
  intro t ht
  rcases mem_freeStage1 ht with h | rfl
  · exact hs _ h
  · exact siteIn_of_b (List.mem_append_right _ (List.mem_singleton_self bs)) (Or.inl rfl)

theorem freeStage2_nodup {P : Params} {ln : MS2Line} {bs : Char} {acc : List Tok}
    (hnd : acc.Nodup) : (freeStage2 P ln bs acc).Nodup := by
  unfold freeStage2
  split
  · split
    · exact nodup_winAppendIfNew (nodup_winAppendIfNew hnd)
    · split
      · split
        · exact nodup_winAppendIfNew (nodup_winAppendIfNew (nodup_winAppendIfNew hnd))
        · exact nodup_winAppendIfNew (nodup_winAppendIfNew hnd)
      · exact nodup_winAppendIfNew hnd
  · exact hnd

theorem freeStage2_siteIn {P : Params} {ln : MS2Line} {processed : List Char} {bs : Char}
    {acc : List Tok} (hs : ∀ t ∈ acc, SiteIn ln (processed ++ [bs]) t) :
    ∀ t ∈ freeStage2 P ln bs acc, SiteIn ln (processed ++ [bs]) t := by
  intro t ht
  have hmem : bs ∈ processed ++ [bs] := List.mem_append_right _ (List.mem_singleton_self bs)
  rcases mem_freeStage2 ht with h | ⟨_, _, rfl | ⟨_, rfl⟩ | ⟨_, _, rfl | ⟨_, rfl⟩⟩⟩
  · exact hs _ h
  · exact siteIn_of_b hmem (Or.inr (Or.inl rfl))
  · exact siteIn_of_b hmem (Or.inr (Or.inr (Or.inl rfl)))
  · exact siteIn_lastPhos rfl
  · exact siteIn_of_b hmem (Or.inr (Or.inr (Or.inr (Or.inl rfl))))

theorem freeStage3_nodup {P : Params} {ln : MS2Line} {processed : List Char} {bs : Char}
    {acc : List Tok} (hnd : acc.Nodup)
    (hs : ∀ t ∈ acc, SiteIn ln processed t) (hb : bs ∉ processed) :
    (freeStage3 P ln bs (freeStage2 P ln bs (freeStage1 P ln bs acc))).Nodup := by
  have hnd2 : (freeStage2 P ln bs (freeStage1 P ln bs acc)).Nodup :=
    freeStage2_nodup (freeStage1_nodup hnd hs hb)
  unfold freeStage3
  split
  · split
    · exact nodup_appendIfNew hnd2
    · refine nodup_plainAppend hnd2 ?_
      intro hmem
      rcases mem_freeStage2 hmem with h | ⟨_, _, h | ⟨_, h⟩ | ⟨_, _, h | ⟨_, h⟩⟩⟩
      · rcases mem_freeStage1 h with h' | h'
        · exact siteIn_ne_baseLossNeutral (hs _ h') hb rfl
        · exact tok_ne_of_site (by simp [tokMBH, tokFree]) h'
      · exact tok_ne_of_site (by simp [tokMBH, tokMB]) h
      · exact tok_ne_of_site (by simp [tokMBH, tokMPBc]) h
      · exact tok_ne_of_site (by simp [tokMBH, tokMPBc]) h
      · exact tok_ne_of_site (by simp [tokMBH, tokMBBc]) h
  · exact hnd2

theorem freeStage3_siteIn {P : Params} {ln : MS2Line} {processed : List Char} {bs : Char}
    {acc : List Tok} (hs : ∀ t ∈ acc, SiteIn ln (processed ++ [bs]) t) :
    ∀ t ∈ freeStage3 P ln bs acc, SiteIn ln (processed ++ [bs]) t := by
  intro t ht
  rcases mem_freeStage3 ht with h | ⟨_, rfl⟩
  · exact hs _ h
  · exact siteIn_of_b (List.mem_append_right _ (List.mem_singleton_self bs))
      (Or.inr (Or.inr (Or.inr (Or.inr (Or.inl rfl)))))

theorem freeStage4_nodup {P : Params} {ln : MS2Line} {bs : Char} {acc : List Tok}
    (hnd : acc.Nodup) : (freeStage4 P ln bs acc).Nodup := by
  unfold freeStage4
  split
  · exact nodup_winAppendIfNew hnd
  · split
    · split
      · exact nodup_winAppendIfNew hnd
      · exact hnd
    · exact hnd

theorem freeStage4_siteIn {P : Params} {ln : MS2Line} {processed : List Char} {bs : Char}
    {acc : List Tok} (hs : ∀ t ∈ acc, SiteIn ln (processed ++ [bs]) t) :
    ∀ t ∈ freeStage4 P ln bs acc, SiteIn ln (processed ++ [bs]) t := by
  intro t ht
  have hmem : bs ∈ processed ++ [bs] := List.mem_append_right _ (List.mem_singleton_self bs)
  rcases mem_freeStage4 ht with h | ⟨_, ⟨_, rfl⟩ | ⟨_, _, _, rfl⟩⟩
  · exact hs _ h
  · exact siteIn_of_b hmem (Or.inr (Or.inr (Or.inr (Or.inr (Or.inr (Or.inl rfl))))))
  · exact siteIn_of_b hmem (Or.inr (Or.inr (Or.inr (Or.inr (Or.inr (Or.inr rfl))))))

theorem freeStep_nodup_siteIn {P : Params} {ln : MS2Line} (processed : List Char) (bs : Char)
    (acc : List Tok) (hnd : acc.Nodup) (hs : ∀ t ∈ acc, SiteIn ln processed t)
    (hb : bs ∉ processed) :
    (freeStep P ln acc bs).Nodup ∧
      ∀ t ∈ freeStep P ln acc bs, SiteIn ln (processed ++ [bs]) t := by
  have hs1 : ∀ t ∈ acc, SiteIn ln (processed ++ [bs]) t :=
    fun t ht => siteIn_mono (List.subset_append_left _ _) (hs t ht)
  constructor
  · exact freeStage4_nodup (freeStage3_nodup hnd hs hb)
  · exact freeStage4_siteIn (freeStage3_siteIn (freeStage2_siteIn (freeStage1_siteIn hs1)))

theorem fold_nodup_siteIn {P : Params} {ln : MS2Line} :
    ∀ (bs : List Char) (processed : List Char) (acc : List Tok), bs.Nodup →
      (∀ b ∈ bs, b ∉ processed) → acc.Nodup → (∀ t ∈ acc, SiteIn ln processed t) →
      (bs.foldl (freeStep P ln) acc).Nodup ∧
        ∀ t ∈ bs.foldl (freeStep P ln) acc, SiteIn ln (processed ++ bs) t := by
  intro bs
  induction bs with
  | nil =>
      intro processed acc _ _ hnd hs
      exact ⟨hnd, by simpa using hs⟩
  | cons b bs' ih =>
      intro processed acc hbs hdisj hnd hs
      obtain ⟨hnd1, hs1⟩ := freeStep_nodup_siteIn processed b acc hnd hs
        (hdisj b (List.mem_cons_self _ _))
      have hnodup' : bs'.Nodup := (List.nodup_cons.mp hbs).2
      have hdisj' : ∀ b' ∈ bs', b' ∉ processed ++ [b] := by
        intro b' hb' hmem
        rcases List.mem_append.mp hmem with h | h
        · exact hdisj b' (List.mem_cons_of_mem _ hb') h
        · exact (List.nodup_cons.mp hbs).1 (List.mem_singleton.mp h ▸ hb')
      obtain ⟨hnd2, hs2⟩ := ih (processed ++ [b]) (freeStep P ln acc b) hnodup' hdisj' hnd1 hs1
      refine ⟨hnd2, ?_⟩
      intro t ht
      have := hs2 t ht
      rwa [List.append_assoc, List.singleton_append] at this

theorem nodup_flatMap_tok {α : Type} (l : List α) (f : α → List Tok) (hl : l.Nodup)
    (hf : ∀ a ∈ l, (f a).Nodup)
    (hdisj : ∀ a ∈ l, ∀ b ∈ l, a ≠ b → ∀ t ∈ f a, t ∉ f b) :
    (l.flatMap f).Nodup := by
  induction l with
  | nil => simp
  | cons a as ih =>
      rw [List.flatMap_cons, List.nodup_append]
      refine ⟨hf a (List.mem_cons_self _ _), ih (List.Nodup.of_cons hl)
        (fun x hx => hf x (List.mem_cons_of_mem _ hx))
        (fun x hx y hy hxy => hdisj x (List.mem_cons_of_mem _ hx) y
          (List.mem_cons_of_mem _ hy) hxy), ?_⟩
      intro t ht hmem
      obtain ⟨b, hb, htb⟩ := List.mem_flatMap.mp hmem
      have hab : a ≠ b := fun he => (List.nodup_cons.mp hl).1 (he ▸ hb)
      exact hdisj a (List.mem_cons_self _ _) b (List.mem_cons_of_mem _ hb) hab t ht htb

theorem cid_site {P : Params} {ln : MS2Line} {ion : CIDIon} {i : ℕ} {mf m3 : ℚ}
    {c : List Char} {u : Tok} (h : u ∈ cidChargeTokens P ln ion i mf m3 c) :
    ∃ alt, u.site = Site.cid ion i c alt := by
  rcases (mem_cidChargeTokens h).2.2.2 with ⟨_, _, rfl⟩ | rfl
  · exact ⟨false, rfl⟩
  · exact ⟨true, rfl⟩

theorem nodup_cidChargeTokens {P : Params} {ln : MS2Line} {ion : CIDIon} {i : ℕ}
    {mf m3 : ℚ} {c : List Char} : (cidChargeTokens P ln ion i mf m3 c).Nodup := by
  unfold cidChargeTokens
  split
  · split
    · split
      · simp
      · simp
    · split
      · simp
      · simp
  · simp

theorem dictFind_nodup {d : Dic} (hnd : ∀ kv ∈ d, kv.2.Nodup) {k : List Char}
    {charges : List (List Char)} (h : dictFind d k = some charges) : charges.Nodup := by
  unfold dictFind at h
  rcases hf : d.find? (fun kv => kv.1 = k) with _ | kv
  · rw [hf] at h; simp at h
  · rw [hf] at h
    simp only [Option.map_some', Option.some.injEq] at h
    rw [← h]
    exact hnd kv (List.mem_of_find?_eq_some hf)

theorem nodup_cidTokens {P : Params} {ln : MS2Line}
    (hnd : ∀ kv ∈ P.chargeDic, kv.2.Nodup) : (cidTokens P ln).Nodup := by
  unfold cidTokens
  apply nodup_flatMap_tok _ _ (List.nodup_dedup _)
  · intro ion _
    apply nodup_flatMap_tok _ _ (List.nodup_range' 1 _ 1 (by norm_num))
    · intro i _
      rcases hfind : dictFind P.chargeDic (natChars i) with _ | charges
      · simp
      · apply nodup_flatMap_tok _ _ (dictFind_nodup hnd hfind)
        · intro c _
          exact nodup_cidChargeTokens
        · intro c1 _ c2 _ hne t ht hmem
          obtain ⟨a1, h1⟩ := cid_site ht
          obtain ⟨a2, h2⟩ := cid_site hmem
          rw [h1] at h2
          exact hne (Site.cid.inj h2).2.2.1
    · intro i1 _ i2 _ hne t ht hmem
      rcases hf1 : dictFind P.chargeDic (natChars i1) with _ | ch1
      · rw [hf1] at ht; simp at ht
      rcases hf2 : dictFind P.chargeDic (natChars i2) with _ | ch2
      · rw [hf2] at hmem; simp at hmem
      rw [hf1] at ht
      rw [hf2] at hmem
      obtain ⟨c1, _, ht1⟩ := List.mem_flatMap.mp ht
      obtain ⟨c2, _, ht2⟩ := List.mem_flatMap.mp hmem
      obtain ⟨a1, h1⟩ := cid_site ht1
      obtain ⟨a2, h2⟩ := cid_site ht2
      rw [h1] at h2
      exact hne (Site.cid.inj h2).2.1
  · intro ion1 _ ion2 _ hne t ht hmem
    obtain ⟨i1, _, ht1⟩ := List.mem_flatMap.mp ht
    obtain ⟨i2, _, ht2⟩ := List.mem_flatMap.mp hmem
    rcases hf1 : dictFind P.chargeDic (natChars i1) with _ | ch1
    · rw [hf1] at ht1; simp at ht1
    rcases hf2 : dictFind P.chargeDic (natChars i2) with _ | ch2
    · rw [hf2] at ht2; simp at ht2
    rw [hf1] at ht1
    rw [hf2] at ht2
    obtain ⟨c1, _, hu1⟩ := List.mem_flatMap.mp ht1
    obtain ⟨c2, _, hu2⟩ := List.mem_flatMap.mp ht2
    obtain ⟨a1, h1⟩ := cid_site hu1
    obtain ⟨a2, h2⟩ := cid_site hu2
    rw [h1] at h2
    exact hne (Site.cid.inj h2).1

/-- The whole output list never repeats a token (provided the MS2 charge
lists carry no duplicate entry). -/
theorem frag_nodup {P : Params} {ln : MS2Line}
    (hnd : ∀ kv ∈ P.chargeDic, kv.2.Nodup) : (fragment_MS2_masses P ln).Nodup := by
  unfold fragment_MS2_masses
  rw [List.nodup_append]
  obtain ⟨hfold, hsites⟩ := fold_nodup_siteIn (uniqueSeq ln) [] (lossTokens P ln)
    (List.nodup_dedup _) (by simp) (nodup_lossTokens P ln) (lossTokens_siteIn P ln)
  refine ⟨hfold, nodup_cidTokens hnd, ?_⟩
  intro t ht hmem
  obtain ⟨ion, _, i, _, charges, _, c, _, hcc⟩ := mem_cidTokens hmem
  obtain ⟨alt, hsite⟩ := cid_site hcc
  have h1 := hsites t ht
  unfold SiteIn at h1
  rcases h1 with h | h | h | h | h | h | ⟨b', _, h | h | h | h | h | h | h⟩ <;>
    rw [hsite] at h <;> exact Site.noConfusion h

/-- Two `name(charge)` labels built from `(`-free names agree exactly on
name and charge part (the position of the first `(` separates them). -/
theorem mkLabel_eq_cases : ∀ {n1 n2 cp1 cp2 : List Char}, mkLabel n1 cp1 = mkLabel n2 cp2 →
    '(' ∉ n1 → '(' ∉ n2 → n1 = n2 ∧ cp1 = cp2 := by
  intro n1
  induction n1 with
  | nil =>
      intro n2 cp1 cp2 h h1 h2
      match n2, h2 with
      | [], _ =>
          refine ⟨rfl, ?_⟩
          unfold mkLabel at h
          injection h with _ h3
          exact List.append_cancel_right h3
      | e :: es, h2 =>
          unfold mkLabel at h
          injection h with h3 _
          exact absurd h3.symm (fun he => h2 (he ▸ List.mem_cons_self e es))
  | cons e1 es1 ih =>
      intro n2 cp1 cp2 h h1 h2
      match n2, h2 with
      | [], h2 =>
          unfold mkLabel at h
          injection h with h3 _
          exact absurd h3 (fun he => h1 (he ▸ List.mem_cons_self e1 es1))
      | e2 :: es2, h2 =>
          unfold mkLabel at h
          simp only [List.cons_append] at h
          injection h with h3 h4
          have h1' : '(' ∉ es1 := fun hm => h1 (List.mem_cons_of_mem _ hm)
          have h2' : '(' ∉ es2 := fun hm => h2 (List.mem_cons_of_mem _ hm)
          obtain ⟨hn, hcp⟩ := ih h4 h1' h2'
          exact ⟨by rw [h3, hn], hcp⟩

/-- Splitting a digit run at its first non-digit character. -/
theorem digit_run_split : ∀ {d1 : List Char} {d2 s1 s2 : List Char} {p1 p2 : Char},
    (∀ c ∈ d1, c.isDigit = true) → (∀ c ∈ d2, c.isDigit = true) →
    p1.isDigit = false → p2.isDigit = false →
    d1 ++ p1 :: s1 = d2 ++ p2 :: s2 → d1 = d2 ∧ p1 = p2 ∧ s1 = s2 := by
  intro d1
  induction d1 with
  | nil =>
      intro d2 s1 s2 p1 p2 _ h2 hp1 _ he
      match d2 with
      | [] =>
          injection he with he1 he2
          exact ⟨rfl, he1, he2⟩
      | f :: fs =>
          simp only [List.nil_append, List.cons_append] at he
          injection he with he1 _
          rw [he1] at hp1
          rw [h2 f (List.mem_cons_self f fs)] at hp1
          cases hp1
  | cons e es ih =>
      intro d2 s1 s2 p1 p2 h1 h2 hp1 hp2 he
      match d2 with
      | [] =>
          simp only [List.cons_append, List.nil_append] at he
          injection he with he1 _
          rw [← he1] at hp2
          rw [h1 e (List.mem_cons_self e es)] at hp2
          cases hp2
      | f :: fs =>
          simp only [List.cons_append] at he
          injection he with he1 he2
          obtain ⟨ha, hb, hc⟩ := ih (fun c hc => h1 c (List.mem_cons_of_mem _ hc))
            (fun c hc => h2 c (List.mem_cons_of_mem _ hc)) hp1 hp2 he2
          exact ⟨by rw [he1, ha], hb, hc⟩

theorem suffix_shape (ion : CIDIon) : ionSuffix ion = [] ∨ ∃ X, ionSuffix ion = ['-', X] := by
  cases ion
  case aB => exact Or.inr ⟨'B', rfl⟩
  case yP => exact Or.inr ⟨'P', rfl⟩
  case zP => exact Or.inr ⟨'P', rfl⟩
  all_goals exact Or.inl rfl

/-- The CID label determines the series, the position and the charge
string. -/
theorem cidLabel_inj {mo : Mode} {ion ion' : CIDIon} {i i' : ℕ} {c c' : List Char}
    (h : cidLabel mo ion i c = cidLabel mo ion' i' c') : ion = ion' ∧ i = i' ∧ c = c' := by
  unfold cidLabel at h
  injection h with h0 h1
  simp only [List.append_eq] at h1
  rw [List.append_assoc, List.append_assoc] at h1
  have hdig1 := natChars_all_digits i
  have hdig2 := natChars_all_digits i'
  have hsplit : natChars i = natChars i' ∧ ionSuffix ion = ionSuffix ion' ∧
      (modeChar mo :: c) ++ [')'] = (modeChar mo :: c') ++ [')'] := by
    rcases suffix_shape ion with hs | ⟨X, hs⟩ <;> rcases suffix_shape ion' with hs' | ⟨X', hs'⟩ <;>
        rw [hs, hs'] at h1 <;> simp only [List.nil_append, List.cons_append] at h1
    · obtain ⟨ha, _, hc⟩ := digit_run_split hdig1 hdig2 (by decide) (by decide) h1
      exact ⟨ha, by rw [hs, hs'], hc⟩
    · obtain ⟨_, hb, _⟩ := digit_run_split hdig1 hdig2 (by decide) (by decide) h1
      cases hb
    · obtain ⟨_, hb, _⟩ := digit_run_split hdig1 hdig2 (by decide) (by decide) h1
      cases hb
    · obtain ⟨ha, _, hc⟩ := digit_run_split hdig1 hdig2 (by decide) (by decide) h1
      injection hc with hc1 hc2
      injection hc2 with _ hc3
      exact ⟨ha, by rw [hs, hs', hc1], hc3⟩
  obtain ⟨hi, hsuf, hcp⟩ := hsplit
  have hieq : i = i' := natChars_injective hi
  have hceq : c = c' := by
    injection List.append_cancel_right hcp with _ h
  refine ⟨?_, hieq, hceq⟩
  cases ion <;> cases ion' <;> simp_all [ionHeadChar, ionSuffix]

/-- A CID label never coincides with a loss label (whose name starts with
`M`). -/
theorem cidLabel_ne_mkLabelM {mo : Mode} {ion : CIDIon} {i : ℕ} {c rest cp : List Char} :
    cidLabel mo ion i c ≠ mkLabel ('M' :: rest) cp := by
  intro h
  unfold cidLabel mkLabel at h
  rw [List.cons_append] at h
  injection h with h0 _
  cases ion <;> simp [ionHeadChar] at h0

/-- A CID label never coincides with a standalone free-base label. -/
theorem cidLabel_ne_free {mo mo' : Mode} {ion : CIDIon} {i : ℕ} {c : List Char} {b : Char} :
    cidLabel mo ion i c ≠ mkLabel [b] (oneTok mo') := by
  intro h
  unfold cidLabel mkLabel oneTok at h
  simp only [List.cons_append, List.nil_append] at h
  injection h with _ h1
  obtain ⟨d, ds, hnc, hd⟩ := natChars_cons i
  rw [hnc] at h1
  simp only [List.cons_append] at h1
  injection h1 with h2 _
  rw [h2] at hd
  cases hd

theorem cidFragMasses_snd_eq_zero {P : Params} {ln : MS2Line} {ion : CIDIon} {i : ℕ}
    (h1 : ion ≠ CIDIon.yP) (h2 : ion ≠ CIDIon.zP) : (cidFragMasses P ln ion i).2 = 0 := by
  unfold cidFragMasses
  repeat' split
  all_goals simp_all

/-- On a light candidate, the neutral base loss of any residue inside the
window is appended unconditionally (the light branch performs no membership
test at this site). -/
theorem tokMBH_mem_frag {P : Params} {ln : MS2Line} {b : Char} (hl : ln.isHeavy = false)
    (hb : b ∈ ln.seq) (hw : inWinB P (tokMBH P ln b).mz = true) :
    tokMBH P ln b ∈ fragment_MS2_masses P ln := by
  have hmem : b ∈ uniqueSeq ln := List.mem_dedup.mpr hb
  obtain ⟨l1, l2, hsplit⟩ := List.append_of_mem hmem
  unfold fragment_MS2_masses
  refine List.mem_append_left _ ?_
  rw [hsplit, List.foldl_append, List.foldl_cons]
  apply subset_foldl_freeStep
  unfold freeStep
  apply subset_freeStage4
  unfold freeStage3
  rw [if_pos hw, if_neg (by simp [hl])]
  exact List.mem_append_right _ (List.mem_singleton_self _)

/-- The alternate `3'-OH` CID emission carries m/z `0` outside `y-P`/`z-P`,
so a positive window lower bound excludes it. -/
theorem cid_false_true_absurd {P : Params} {ln : MS2Line} {ion : CIDIon} {i : ℕ} {c : List Char}
    (hlow : 0 < P.mzlow) (hy : ion ≠ CIDIon.yP) (hz : ion ≠ CIDIon.zP)
    (hw : inWinB P (cidMz3 P.mode (cidFragMasses P ln ion i).2 (strVal c : ℚ)) = true) :
    False := by
  rw [cidFragMasses_snd_eq_zero hy hz] at hw
  rw [show cidMz3 P.mode 0 (strVal c : ℚ) = 0 from by simp [cidMz3]] at hw
  rw [inWin_iff] at hw
  exact absurd hw.1 (not_le.mpr hlow)

set_option maxHeartbeats 3200000 in
/-- On a candidate whose residue IDs avoid the letter `P`, with decimal
charge digits and a positive MS2 window lower bound, equal printed labels in
the output force equal tokens. -/
theorem frag_label_inj {P : Params} {ln : MS2Line}
    (hdig : ∀ d ∈ ln.chargeDigits, d < 10) (hP : 'P' ∉ ln.seq) (hlow : 0 < P.mzlow) :
    ∀ t ∈ fragment_MS2_masses P ln, ∀ u ∈ fragment_MS2_masses P ln,
      t.label = u.label → t = u := by
  intro t ht u hu hlbl
  rcases mem_frag ht with
      ⟨hwt0, rfl | ⟨hcht, rfl | rfl | ⟨hzt, rfl | rfl⟩⟩ | ⟨hcht, hcpt, hzt, rfl⟩⟩ |
      ⟨b1, hb1, rfl | ⟨hzt, hwt2, rfl | ⟨hcht, rfl⟩ | ⟨hcht, hcpt, rfl | ⟨hdlt, rfl⟩⟩⟩ |
        ⟨hwt2, rfl⟩ | ⟨hwt2, ⟨hcht, rfl⟩ | ⟨hcht, hcpt, hdlt, rfl⟩⟩⟩ |
      hKt <;>
    rcases mem_frag hu with
        ⟨hwu0, rfl | ⟨hchu, rfl | rfl | ⟨hzu, rfl | rfl⟩⟩ | ⟨hchu, hcpu, hzu, rfl⟩⟩ |
        ⟨b2, hb2, rfl | ⟨hzu, hwu2, rfl | ⟨hchu, rfl⟩ | ⟨hchu, hcpu, rfl | ⟨hdlu, rfl⟩⟩⟩ |
          ⟨hwu2, rfl⟩ | ⟨hwu2, ⟨hchu, rfl⟩ | ⟨hchu, hcpu, hdlu, rfl⟩⟩⟩ |
        hKu <;>
    first
    | rfl
    | (simp_all [tokMH2O, tokMPn, tokMH2OPn, tokMPc, tokMH2OPc, tokFree, tokMB, tokMPBc,
        tokMBBc, tokMBH, tokMPBn, tokMBBn, mkLabel, oneTok, uniqueSeq, List.mem_dedup,
        List.append_left_inj]
       done)
    | (have h1 := @precOf_ne_clTokOf P ln hdig hzt
       have h2 := h1.symm
       simp_all [tokMH2O, tokMPn, tokMH2OPn, tokMPc, tokMH2OPc, tokFree, tokMB, tokMPBc,
        tokMBBc, tokMBH, tokMPBn, tokMBBn, mkLabel, oneTok, uniqueSeq, List.mem_dedup,
        List.append_left_inj]
       done)
    | (have h1 := @precOf_ne_clTokOf P ln hdig hzu
       have h2 := h1.symm
       simp_all [tokMH2O, tokMPn, tokMH2OPn, tokMPc, tokMH2OPc, tokFree, tokMB, tokMPBc,
        tokMBBc, tokMBH, tokMPBn, tokMBBn, mkLabel, oneTok, uniqueSeq, List.mem_dedup,
        List.append_left_inj]
       done)
    | (have h3 : b1 ≠ 'P' := fun he => hP (List.mem_dedup.mp (he ▸ hb1))
       have h4 := h3.symm
       simp_all [tokMH2O, tokMPn, tokMH2OPn, tokMPc, tokMH2OPc, tokFree, tokMB, tokMPBc,
        tokMBBc, tokMBH, tokMPBn, tokMBBn, mkLabel, oneTok, uniqueSeq, List.mem_dedup,
        List.append_left_inj]
       done)
    | (have h3 : b2 ≠ 'P' := fun he => hP (List.mem_dedup.mp (he ▸ hb2))
       have h4 := h3.symm
       simp_all [tokMH2O, tokMPn, tokMH2OPn, tokMPc, tokMH2OPc, tokFree, tokMB, tokMPBc,
        tokMBBc, tokMBH, tokMPBn, tokMBBn, mkLabel, oneTok, uniqueSeq, List.mem_dedup,
        List.append_left_inj]
       done)
    | (revert hKt
       intro hKt
       obtain ⟨ion, hion, i, hi, ch, hfind, c, hc, hcc⟩ := mem_cidTokens hKt
       have hlbt := (mem_cidChargeTokens hcc).2.2.1
       rw [hlbt] at hlbl
       first
       | exact absurd hlbl cidLabel_ne_mkLabelM
       | exact absurd hlbl cidLabel_ne_free)
    | (revert hKu
       intro hKu
       obtain ⟨ion, hion, i, hi, ch, hfind, c, hc, hcc⟩ := mem_cidTokens hKu
       have hlbu := (mem_cidChargeTokens hcc).2.2.1
       rw [hlbu] at hlbl
       first
       | exact absurd hlbl.symm cidLabel_ne_mkLabelM
       | exact absurd hlbl.symm cidLabel_ne_free)
    | (revert hKt hKu
       intro hKt hKu
       obtain ⟨ion, hion, i, hi, ch, hfind, c, hc, hcc⟩ := mem_cidTokens hKt
       obtain ⟨ion2, hion2, i2, hi2, ch2, hfind2, c2, hc2, hcc2⟩ := mem_cidTokens hKu
       obtain ⟨hcv1, hw1, hlb1, hf1⟩ := mem_cidChargeTokens hcc
       obtain ⟨hcv2, hw2, hlb2, hf2⟩ := mem_cidChargeTokens hcc2
       rw [hlb1, hlb2] at hlbl
       obtain ⟨rfl, rfl, rfl⟩ := cidLabel_inj hlbl
       rcases hf1 with ⟨hy1, hz1, rfl⟩ | rfl <;> rcases hf2 with ⟨hy2, hz2, rfl⟩ | rfl <;>
         first
         | rfl
         | exact (cid_false_true_absurd hlow hy1 hz1 hw2).elim
         | exact (cid_false_true_absurd hlow hy2 hz2 hw1).elim)

/-- A charge-1 phosphate candidate whose single residue ID is the letter
`P`. -/
def lnC6 : MS2Line := ⟨400, false, [1], ['P'], .OH, .P⟩

/-- C6 (counterexample): on the candidate with residue ID `P` and a
3'-phosphate, the neutral phosphate loss and the neutral base loss of the
residue `P` are both emitted and print the same label `M-P(-1)`, so the
label list has a duplicate. -/
theorem claim_C6_counterexample :
    ¬ ((fragment_MS2_masses P5 lnC6).map Tok.label).Nodup := by
  intro hnd
  have hch : lnC6.chem3 = Chem3.P ∨ lnC6.chem5 = Chem5.P := Or.inl rfl
  have hw1 : inWinB P5 (tokMPn P5 lnC6).mz = true := by
    rw [inWin_iff]
    norm_num [tokMPn, P5, lnC6, dicMPO3H, zOf, digitsVal, eleH, eleO, eleP]
  have h1 : tokMPn P5 lnC6 ∈ fragment_MS2_masses P5 lnC6 :=
    lossTokens_subset_frag P5 lnC6 (tokMPn_mem_loss hch hw1)
  have hw2 : inWinB P5 (tokMBH P5 lnC6 'P').mz = true := by
    rw [inWin_iff]
    norm_num [tokMBH, P5, lnC6, baseDic, zOf, digitsVal, eleH]
  have h2 : tokMBH P5 lnC6 'P' ∈ fragment_MS2_masses P5 lnC6 :=
    tokMBH_mem_frag rfl (by decide) hw2
  have h3 := List.inj_on_of_nodup_map hnd h1 h2 rfl
  exact tok_ne_of_site (by simp [tokMPn, tokMBH]) h3

/-- C6 (amended): provided no residue ID is the letter `P` (which collides
with the printed phosphate-loss names), the charge-token digits are decimal,
the MS2 window lower bound is positive and the MS2 charge lists carry no
duplicates, the printed labels of the output are pairwise distinct; in
particular a nucleobase occurring several times in the sequence contributes
its standalone free-base label exactly once. -/
theorem claim_C6_amended {P : Params} {ln : MS2Line}
    (hdig : ∀ d ∈ ln.chargeDigits, d < 10) (hP : 'P' ∉ ln.seq) (hlow : 0 < P.mzlow)
    (hnd : ∀ kv ∈ P.chargeDic, kv.2.Nodup) :
    ((fragment_MS2_masses P ln).map Tok.label).Nodup ∧
    ∀ b ∈ ln.seq,
      @List.count (List Char) instBEqOfDecidableEq (tokFree P ln b).label
        ((fragment_MS2_masses P ln).map Tok.label) = 1 := by
  have hmap : ((fragment_MS2_masses P ln).map Tok.label).Nodup :=
    List.Nodup.map_on (frag_label_inj hdig hP hlow) (frag_nodup hnd)
  refine ⟨hmap, fun b hb => ?_⟩
  obtain ⟨u, hu, hulbl, _⟩ := freeBase_mem_frag P ln b hb
  exact List.count_eq_one_of_mem hmap (hulbl ▸ List.mem_map_of_mem Tok.label hu)

/-- Witness for `claim_C6_amended` at the concrete charge-2 phosphate
candidate. -/
theorem claim_C6_witness :
    ((fragment_MS2_masses P5 lnP2).map Tok.label).Nodup ∧
    ∀ b ∈ lnP2.seq,
      @List.count (List Char) instBEqOfDecidableEq (tokFree P5 lnP2 b).label
        ((fragment_MS2_masses P5 lnP2).map Tok.label) = 1 :=
  claim_C6_amended (by decide) (by decide) (by norm_num [P5]) (by decide)

/-! ### error-handling anchor -/

/-! ### Error-handling skeleton of the module-level workflow (claim C8)

The source's top level (lines 639-666 and 673-1481) interleaves file-existence
checks with the digest computations.  For the error-handling claim only the
control flow matters, so it is modelled as a function of the file-existence
facts.  Order of the checks in the source: the light alphabet is read first
(already while elaborating `lines_final`'s default argument and again inside
`__controls`), then `read_csv` reads `nts_light.csv`, then — only when
`--nts_heavy` was named — the heavy alphabet is read; each of these calls
`sys.exit(1)` after printing an error when its file is missing.  Only then
are the MS1/MS2 digests attempted, each skipped with a printed warning when
its `output.3.*` input file is absent.  A `fatal` result carries no outputs:
`sys.exit` aborts before any digest is produced. -/

structure Env where
  lightExists : Bool
  csvExists : Bool
  heavyNamed : Bool
  heavyExists : Bool
  ms1InputExists : Bool
  ms2InputExists : Bool
deriving DecidableEq, Repr

inductive RunResult
| fatal (exitCode : ℕ) (msg : String)
| done (warnings : List String) (outputs : List String)
deriving DecidableEq, Repr

def msgLightMissing : String := "ERROR! File nts_light does not exist. Execution terminated without generating any output"

def msgCsvMissing : String := "ERROR! File nts_light.csv with info on nucleotides from script 2_modify.py is missing. Execution terminated without output"

def msgHeavyMissing : String := "ERROR! File nts_heavy does not exist. Execution terminated without generating any output"

def warnMS1Missing : String := "WARNING! MS1 file output.3.MS1 from 3_consolidate.py is missing, MS1 digest will not be generated"

def warnMS2Missing : String := "WARNING! MS2 file output.3.MS2 from 3_consolidate.py is missing, MS2 digest will not be calculated"

def outMS1 : String := "Digest_MS1.txt"

def outMS2 : String := "Digest_MS2.txt"

/-- The module-level workflow of `4_calc_mass.py`, restricted to its
error-handling skeleton (consolidation off). -/
def runPipeline (e : Env) : RunResult :=
  if e.lightExists = false then .fatal 1 msgLightMissing
  else if e.csvExists = false then .fatal 1 msgCsvMissing
  else if e.heavyNamed = true ∧ e.heavyExists = false then .fatal 1 msgHeavyMissing
  else
    .done
      ((if e.ms1InputExists then [] else [warnMS1Missing])
        ++ (if e.ms2InputExists then [] else [warnMS2Missing]))
      ((if e.ms1InputExists then [outMS1] else [])
        ++ (if e.ms2InputExists then [outMS2] else []))

/-! ### Concrete inputs used by counterexamples and witnesses -/

/-- Charge-table file whose lists are `1 → [2,3]` and `2 → [10,5]`. -/
def cexChargeLines : List ChargeFileLine :=
  [⟨'1', ['1'], [['2'], ['3']]⟩, ⟨'2', ['2'], [['1', '0'], ['5']]⟩]

/-- A contiguous charge table with keys 1 and 2. -/
def dContig : Dic := [(['1'], [['1']]), (['2'], [['1']])]

/-- A gapped charge table with keys 1 and 3 but no key 2. -/
def dGap : Dic := [(['1'], [['1']]), (['3'], [['1']])]

/-- A two-residue uncharged candidate line. -/
def candNC2 : CandNC := ⟨['A', 'A'], .OH, .OH⟩

/-- An alphabet in which every residue has total mass 400 Da. -/
def ntsA400 : Char → ℚ := fun _ => 400

/-- An alphabet in which every residue has the spec example's total mass
329.0525 Da. -/
def ntsA329 : Char → ℚ := fun _ => 3290525 / 10000

/-- Single-residue candidate at charge 12 (a two-digit charge token). -/
def candZ12 : Cand := ⟨[1, 2], ['A'], .OH, .OH⟩

/-- Single-residue candidate at charge 2. -/
def candZ2 : Cand := ⟨[2], ['A'], .OH, .OH⟩

/-- The spec example's candidate: one residue, 5'-OH, 3'-OH, charge +1. -/
def candZ1 : Cand := ⟨[1], ['A'], .OH, .OH⟩

/-- C2: at charge 12 (charge token digits `[1,2]`) in positive mode the code
adds only `H × 1` — hydrogen times the FIRST digit of the charge token —
before dividing by the full charge 12, so the emitted m/z is
`(corrected_mass + 1·H)/12`, which differs from the claimed
`(corrected_mass + 12·H)/12`.  (The corrected neutral mass of `candZ12` is
`400 + O + H − P − 3·O`.) -/
theorem claim_C2_divergence :
    lineMass .pos ntsA400 candZ12 = (400 + eleO + eleH - eleP - 3 * eleO + eleH * 1) / 12 ∧
    lineMass .pos ntsA400 candZ12 ≠ (400 + eleO + eleH - eleP - 3 * eleO + eleH * 12) / 12 := by
  constructor
  · norm_num [lineMass, ntsA400, candZ12, digitsVal, firstDigit, chem5corr, chem3corr,
      eleH, eleO, eleP]
  · norm_num [lineMass, ntsA400, candZ12, digitsVal, firstDigit, chem5corr, chem3corr,
      eleH, eleO, eleP]

/-- C4 (counterexample): at charge magnitude 2 the positive-mode m/z minus
the negative-mode m/z equals `2·H`, not the claimed `2·H/2`. -/
theorem claim_C4_counterexample :
    lineMass .pos ntsA400 candZ2 - lineMass .neg ntsA400 candZ2 = 2 * eleH ∧
    (2 * eleH : ℚ) ≠ 2 * eleH / 2 := by
  constructor
  · norm_num [lineMass, ntsA400, candZ2, digitsVal, firstDigit, chem5corr, chem3corr,
      eleH, eleO, eleP]
  · norm_num [eleH]

/-- C4 (amended): for every candidate with a nonzero charge value,
`mz(+) − mz(−) = 2·H·d/z` where `d` is the first digit of the charge token
and `z` its full value; in particular the difference is `2·H` (independent of
`z`) for single-digit charges. -/
theorem claim_C4_amended (nts : Char → ℚ) (c : Cand)
    (h : (digitsVal c.chargeDigits : ℚ) ≠ 0) :
    lineMass .pos nts c - lineMass .neg nts c
      = 2 * eleH * (firstDigit c.chargeDigits : ℚ) / (digitsVal c.chargeDigits : ℚ) := by
  unfold lineMass
  field_simp
  ring

/-- Witness for `claim_C4_amended` at the concrete candidate `candZ2`. -/
theorem claim_C4_witness :
    lineMass .pos ntsA400 candZ2 - lineMass .neg ntsA400 candZ2
      = 2 * eleH * (firstDigit candZ2.chargeDigits : ℚ) / (digitsVal candZ2.chargeDigits : ℚ) :=
  claim_C4_amended ntsA400 candZ2 (by norm_num [digitsVal, candZ2])

/-- C7 (counterexample): for the spec example (total mass 329.0525, 5'-OH,
3'-OH, charge +1, positive mode) the m/z computed by `lines_final` exceeds
the claimed literal `329.0525 + O + H − P − 3·O` by one full hydrogen mass,
far more than the claimed 1e-6 tolerance. -/
theorem claim_C7_counterexample :
    lineMass .pos ntsA329 candZ1 - (3290525 / 10000 + eleO + eleH - eleP - 3 * eleO) = eleH ∧
    (1 / 1000000 : ℚ) < eleH := by
  constructor
  · norm_num [lineMass, ntsA329, candZ1, digitsVal, firstDigit, chem5corr, chem3corr,
      eleH, eleO, eleP]
  · norm_num [eleH]

/-- C7 (amended): the emitted m/z for the spec example equals
`329.0525 + O + 2·H − P − 3·O` — the claimed formula plus the charge proton
added for charge +1 in positive mode — exactly, and the candidate is emitted
by `lines_final` for a window containing that value. -/
theorem claim_C7_amended :
    lines_final .pos ntsA329 none 100 2000 [candZ1] =
      [⟨3290525 / 10000 + eleO + 2 * eleH - eleP - 3 * eleO, none, candZ1⟩] := by
  norm_num [lines_final, List.filterMap, lineMass, ntsA329, candZ1, digitsVal, firstDigit,
    chem5corr, chem3corr, eleH, eleO, eleP]

/-- C10: whether a candidate line is emitted depends only on its light m/z;
two runs differing only in the heavy alphabet produce the same list of MS1
lines up to the printed heavy m/z column (the heavy m/z is never tested
against the window). -/
theorem claim_C10_heavy_independent (mode : Mode) (ntsL h1 h2 : Char → ℚ)
    (low high : ℚ) (ls : List Cand) :
    (lines_final mode ntsL (some h1) low high ls).map (fun o => (o.mzLight, o.cand))
      = (lines_final mode ntsL (some h2) low high ls).map (fun o => (o.mzLight, o.cand)) := by
  induction ls with
  | nil => rfl
  | cons c cs ih =>
      simp only [lines_final, List.filterMap_cons, Option.getD_some, Option.map_some'] at ih ⊢
      by_cases hc : low < lineMass mode ntsL c ∧ lineMass mode ntsL c < high
      · simp [hc, ih]
      · simp [hc, ih]

/-- C3 (counterexample): for the table `1 → [2,3]`, `2 → [10,5]` the source
derives minimum charge 5 (the minimum over the list `[10,5]` selected because
`["10","5"]` precedes `["2","3"]` in Python's string ordering) although the
global minimum is 2, and derives maximum charge 3 although the global maximum
is 10. -/
theorem claim_C3_counterexample :
    derivedMinZ (charge_table cexChargeLines) = some 5 ∧
    globalMinZ (charge_table cexChargeLines) = some 2 ∧
    derivedMaxZ (charge_table cexChargeLines) = some 3 ∧
    globalMaxZ (charge_table cexChargeLines) = some 10 ∧
    (5 : ℕ) ≠ 2 ∧ (3 : ℕ) ≠ 10 := by
  decide

/-- C3 (amended): the derived minimum charge bound is the minimum over ONE of
the table's charge lists (the one lexicographically least under Python's
string-list ordering), hence at least the global minimum; dually, the derived
maximum bound is the maximum over one list, hence at most the global maximum.
Equality with the global bounds is not guaranteed. -/
theorem claim_C3_amended (lines : List ChargeFileLine) (m M : ℕ)
    (hm : derivedMinZ (charge_table lines) = some m)
    (hM : derivedMaxZ (charge_table lines) = some M) :
    (∃ kv ∈ charge_table lines, m ∈ kv.2.map strVal ∧ ∀ x ∈ kv.2.map strVal, m ≤ x) ∧
    (∃ kv ∈ charge_table lines, M ∈ kv.2.map strVal ∧ ∀ x ∈ kv.2.map strVal, x ≤ M) ∧
    (∀ g, globalMinZ (charge_table lines) = some g → g ≤ m) ∧
    (∀ G, globalMaxZ (charge_table lines) = some G → M ≤ G) := by
  unfold derivedMinZ at hm
  unfold derivedMaxZ at hM
  rcases hkv : minByVal (charge_table lines) with _ | kv
  · rw [hkv] at hm; simp at hm
  rcases hKV : maxByVal (charge_table lines) with _ | KV
  · rw [hKV] at hM; simp at hM
  rw [hkv] at hm
  rw [hKV] at hM
  simp only [Option.some_bind] at hm hM
  have hkv_mem := minByVal_mem hkv
  have hKV_mem := maxByVal_mem hKV
  obtain ⟨hm_mem, hm_le⟩ := natMinList_spec hm
  obtain ⟨hM_mem, hM_le⟩ := natMaxList_spec hM
  refine ⟨⟨kv, hkv_mem, hm_mem, hm_le⟩, ⟨KV, hKV_mem, hM_mem, hM_le⟩, ?_, ?_⟩
  · intro g hg
    obtain ⟨_, hg_le⟩ := natMinList_spec hg
    exact hg_le m (List.mem_flatMap.mpr ⟨kv, hkv_mem, hm_mem⟩)
  · intro G hG
    obtain ⟨_, hG_le⟩ := natMaxList_spec hG
    exact hG_le M (List.mem_flatMap.mpr ⟨KV, hKV_mem, hM_mem⟩)

/-- Witness for `claim_C3_amended` at the concrete table `cexChargeLines`. -/
theorem claim_C3_witness :
    (∃ kv ∈ charge_table cexChargeLines, 5 ∈ kv.2.map strVal ∧ ∀ x ∈ kv.2.map strVal, 5 ≤ x) ∧
    (∃ kv ∈ charge_table cexChargeLines, 3 ∈ kv.2.map strVal ∧ ∀ x ∈ kv.2.map strVal, x ≤ 3) ∧
    (∀ g, globalMinZ (charge_table cexChargeLines) = some g → g ≤ 5) ∧
    (∀ G, globalMaxZ (charge_table cexChargeLines) = some G → 3 ≤ G) :=
  claim_C3_amended cexChargeLines 5 3 (by decide) (by decide)

/-- C9: the MS1 charge lookup of `lines_with_charge` is total exactly under
the contiguity precondition.  (a) When every length between the table's
minimum and maximum keys has an entry, the enumeration succeeds on every
candidate list.  (b) Any candidate whose sequence length lies within the key
bounds but is absent from the table makes the whole run fail (the uncaught
`KeyError`, modelled as `none`). -/
theorem linesGo_isSome (d : Dic) (lo hi : ℕ)
    (htot : ∀ L, lo ≤ L → L ≤ hi → (dictFind d (natChars L)).isSome = true) :
    ∀ ls : List CandNC, (linesWithChargeGo d lo hi ls).isSome = true := by
  intro ls
  induction ls with
  | nil => rfl
  | cons c cs ih =>
      simp only [linesWithChargeGo]
      by_cases hc : lo ≤ c.seq.length ∧ c.seq.length ≤ hi
      · rw [if_pos hc]
        rcases hfind : dictFind d (natChars c.seq.length) with _ | charges
        · have := htot c.seq.length hc.1 hc.2
          rw [hfind] at this
          simp at this
        · rcases hrest : linesWithChargeGo d lo hi cs with _ | r
          · rw [hrest] at ih; simp at ih
          · simp
      · rw [if_neg hc]; exact ih

theorem linesGo_none (d : Dic) (lo hi : ℕ) (c : CandNC)
    (h1 : lo ≤ c.seq.length) (h2 : c.seq.length ≤ hi)
    (hfind : dictFind d (natChars c.seq.length) = none) :
    ∀ ls : List CandNC, c ∈ ls → linesWithChargeGo d lo hi ls = none := by
  intro ls hc
  induction ls with
  | nil => simp at hc
  | cons x xs ih =>
      simp only [linesWithChargeGo]
      rcases List.mem_cons.mp hc with rfl | hmem
      · rw [if_pos ⟨h1, h2⟩, hfind]
      · by_cases hx : lo ≤ x.seq.length ∧ x.seq.length ≤ hi
        · rw [if_pos hx, ih hmem]
          rcases dictFind d (natChars x.seq.length) with _ | charges <;> rfl
        · rw [if_neg hx]; exact ih hmem

/-- C9: the MS1 charge lookup of `lines_with_charge` is total exactly under
the contiguity precondition.  (a) When every length between the table's
minimum and maximum keys has an entry, the enumeration succeeds on every
candidate list.  (b) Any candidate whose sequence length lies within the key
bounds but is absent from the table makes the whole run fail (the uncaught
`KeyError`, modelled as `none`). -/
theorem claim_C9_lookup_totality :
    (∀ (d : Dic) (ls : List CandNC) (lo hi : ℕ),
      minKeyVal d = some lo → maxKeyVal d = some hi →
      (∀ L, lo ≤ L → L ≤ hi → (dictFind d (natChars L)).isSome = true) →
      (lines_with_charge d ls).isSome = true) ∧
    (∀ (d : Dic) (ls : List CandNC) (c : CandNC),
      c ∈ ls → ∀ lo hi, minKeyVal d = some lo → maxKeyVal d = some hi →
      lo ≤ c.seq.length → c.seq.length ≤ hi →
      dictFind d (natChars c.seq.length) = none →
      lines_with_charge d ls = none) := by
  constructor
  · intro d ls lo hi hlo hhi htot
    unfold lines_with_charge
    rw [hlo, hhi]
    exact linesGo_isSome d lo hi htot ls
  · intro d ls c hc lo hi hlo hhi h1 h2 hfind
    unfold lines_with_charge
    rw [hlo, hhi]
    exact linesGo_none d lo hi c h1 h2 hfind ls hc

/-- Witness for `claim_C9_lookup_totality`: the contiguous table succeeds on
the two-residue candidate, the gapped table (keys 1 and 3) fails on it. -/
theorem claim_C9_witness :
    (lines_with_charge dContig [candNC2]).isSome = true ∧
    lines_with_charge dGap [candNC2] = none := by
  constructor
  · exact claim_C9_lookup_totality.1 dContig [candNC2] 1 2 (by decide) (by decide)
      (by intro L h1 h2; interval_cases L <;> decide)
  · exact claim_C9_lookup_totality.2 dGap [candNC2] candNC2 (by decide) 1 3
      (by decide) (by decide) (by decide) (by decide) (by decide)

/-- C8: a missing required resource (the light alphabet, or a heavy alphabet
that was named) aborts the run with exit status 1 and a descriptive message
before any digest is produced (a `fatal` result carries no outputs), while a
missing optional `output.3.MS1` merely yields a warning, drops the MS1 digest
and lets the MS2 digest proceed. -/
theorem claim_C8_error_handling (e : Env) :
    (e.lightExists = false → runPipeline e = .fatal 1 msgLightMissing) ∧
    (e.lightExists = true → e.csvExists = true → e.heavyNamed = true → e.heavyExists = false →
      runPipeline e = .fatal 1 msgHeavyMissing) ∧
    (e.lightExists = true → e.csvExists = true → (e.heavyNamed = true → e.heavyExists = true) →
      e.ms1InputExists = false → e.ms2InputExists = true →
      runPipeline e = .done [warnMS1Missing] [outMS2] ∧ outMS1 ∉ [outMS2]) := by
  refine ⟨?_, ?_, ?_⟩
  · intro h1; simp [runPipeline, h1]
  · intro h1 h2 h3 h4; simp [runPipeline, h1, h2, h3, h4]
  · intro h1 h2 h3 h4 h5
    constructor
    · rcases hn : e.heavyNamed with _ | _
      · simp [runPipeline, h1, h2, h4, h5, hn]
      · simp [runPipeline, h1, h2, h4, h5, hn, h3 hn]
    · simp [outMS1, outMS2]

/-- Witness for `claim_C8_error_handling` at concrete environments. -/
theorem claim_C8_witness :
    runPipeline ⟨false, true, false, false, true, true⟩ = .fatal 1 msgLightMissing ∧
    runPipeline ⟨true, true, true, false, true, true⟩ = .fatal 1 msgHeavyMissing ∧
    runPipeline ⟨true, true, false, false, false, true⟩ = .done [warnMS1Missing] [outMS2] := by
  refine ⟨?_, ?_, ?_⟩
  · exact (claim_C8_error_handling ⟨false, true, false, false, true, true⟩).1 rfl
  · exact (claim_C8_error_handling ⟨true, true, true, false, true, true⟩).2.1 rfl rfl rfl rfl
  · exact ((claim_C8_error_handling ⟨true, true, false, false, false, true⟩).2.2 rfl rfl
      (fun h => by cases h) rfl rfl).1

end Pytheas
